import Mathlib

set_option maxRecDepth 100000

/-!
# Verification of the OTC RSS mirror pipeline

A shallow embedding of `fetch_and_filter_rss.py`: the fingerprinting scheme
(SHA-256 over the entry's identity material), the store loader, the
merge-prune engine, the durable writer, and the retry/fallback transport
policy, together with proofs of the specified properties.

Conventions of the embedding:
* Python `dict`s are insertion-ordered association lists with unique keys.
* JSON values are the inductive `Jval`; machine integers are `Nat`/`Int`.
* Timestamps are `Nat` microseconds on an absolute UTC timeline (the model of
  `datetime`); `isoformat`/`fromisoformat` are modelled as the fixed-width,
  order-preserving decimal rendering of that timeline (the code only ever
  produces and consumes the single uniform UTC rendering
  `YYYY-MM-DDTHH:MM:SS.ffffff+00:00`, which is order-isomorphic to it).
* Fallible Python code (uncaught exceptions) is `Except PyErr`.
-/

/-! ## SHA-256 (the `hashlib.sha256(...).hexdigest()` call) -/

def M32 : Nat := 4294967296

def rotr32 (n x : Nat) : Nat := ((x >>> n) ||| (x <<< (32 - n))) % M32

def shaCh (e f g : Nat) : Nat := (e &&& f) ^^^ ((e ^^^ (M32 - 1)) &&& g)

def shaMaj (a b c : Nat) : Nat := (a &&& b) ^^^ (a &&& c) ^^^ (b &&& c)

def bigS0 (x : Nat) : Nat := rotr32 2 x ^^^ rotr32 13 x ^^^ rotr32 22 x

def bigS1 (x : Nat) : Nat := rotr32 6 x ^^^ rotr32 11 x ^^^ rotr32 25 x

def smallS0 (x : Nat) : Nat := rotr32 7 x ^^^ rotr32 18 x ^^^ (x >>> 3)

def smallS1 (x : Nat) : Nat := rotr32 17 x ^^^ rotr32 19 x ^^^ (x >>> 10)

def shaK : List Nat :=
  [1116352408, 1899447441, 3049323471, 3921009573, 961987163,
   1508970993, 2453635748, 2870763221, 3624381080, 310598401,
   607225278, 1426881987, 1925078388, 2162078206, 2614888103,
   3248222580, 3835390401, 4022224774, 264347078, 604807628,
   770255983, 1249150122, 1555081692, 1996064986, 2554220882,
   2821834349, 2952996808, 3210313671, 3336571891, 3584528711,
   113926993, 338241895, 666307205, 773529912, 1294757372,
   1396182291, 1695183700, 1986661051, 2177026350, 2456956037,
   2730485921, 2820302411, 3259730800, 3345764771, 3516065817,
   3600352804, 4094571909, 275423344, 430227734, 506948616,
   659060556, 883997877, 958139571, 1322822218, 1537002063,
   1747873779, 1955562222, 2024104815, 2227730452, 2361852424,
   2428436474, 2756734187, 3204031479, 3329325298]

def shaH0 : List Nat :=
  [1779033703, 3144134277, 1013904242, 2773480762,
   1359893119, 2600822924, 528734635, 1541459225]

/-- Big-endian bytes of `n`, `len` bytes wide. -/
def toBytesBE (len n : Nat) : List Nat :=
  (List.range len).map (fun i => (n >>> (8 * (len - 1 - i))) % 256)

/-- SHA-256 message padding: append `0x80`, zero bytes to 56 mod 64, then the
bit length as 8 big-endian bytes. -/
def shaPad (msg : List Nat) : List Nat :=
  let L := msg.length
  let zeros := (120 - ((L + 1) % 64)) % 64
  msg ++ [0x80] ++ List.replicate zeros 0 ++ toBytesBE 8 (8 * L)

/-- Split a byte list into 64-byte chunks (fuel-driven structural recursion so
that the kernel can evaluate it). -/
def group64F : Nat → List Nat → List (List Nat)
  | 0, _ => []
  | _ + 1, [] => []
  | fuel + 1, l => l.take 64 :: group64F fuel (l.drop 64)

def group64 (l : List Nat) : List (List Nat) := group64F (l.length + 1) l

/-- The first four bytes of `l` as one big-endian 32-bit word. -/
def wordBE (l : List Nat) : Nat :=
  l.getD 0 0 * 16777216 + l.getD 1 0 * 65536 + l.getD 2 0 * 256 + l.getD 3 0

/-- Extend the 16 message-schedule words by `n` more. -/
def extendW : List Nat → Nat → List Nat
  | w, 0 => w
  | w, n + 1 =>
    let i := w.length
    let nw := (smallS1 (w.getD (i - 2) 0) + w.getD (i - 7) 0 +
               smallS0 (w.getD (i - 15) 0) + w.getD (i - 16) 0) % M32
    extendW (w ++ [nw]) n

/-- One round of the SHA-256 compression function on state `[a,b,c,d,e,f,g,h]`. -/
def shaRound (st : List Nat) (kw : Nat × Nat) : List Nat :=
  let a := st.getD 0 0
  let b := st.getD 1 0
  let c := st.getD 2 0
  let d := st.getD 3 0
  let e := st.getD 4 0
  let f := st.getD 5 0
  let g := st.getD 6 0
  let h := st.getD 7 0
  let t1 := (h + bigS1 e + shaCh e f g + kw.1 + kw.2) % M32
  let t2 := (bigS0 a + shaMaj a b c) % M32
  [(t1 + t2) % M32, a, b, c, (d + t1) % M32, e, f, g]

def shaCompress (hs : List Nat) (block : List Nat) : List Nat :=
  let w0 := (List.range 16).map (fun i => wordBE (block.drop (4 * i)))
  let w := extendW w0 48
  let fin := (shaK.zip w).foldl shaRound hs
  (hs.zip fin).map (fun p => (p.1 + p.2) % M32)

def sha256words (msg : List Nat) : List Nat :=
  (group64 (shaPad msg)).foldl shaCompress shaH0

def hexChar (n : Nat) : Char :=
  if n < 10 then Char.ofNat (48 + n) else Char.ofNat (87 + n)

def hex8 (w : Nat) : List Char :=
  (List.range 8).map (fun i => hexChar ((w >>> (4 * (7 - i))) % 16))

/-- Lowercase hex digest of a SHA-256 word list. -/
def hexDigest (ws : List Nat) : String :=
  String.mk (ws.foldr (fun w acc => hex8 w ++ acc) [])

/-- UTF-8 encoding of one scalar value (the `str.encode("utf-8")` model). -/
def utf8Char (c : Char) : List Nat :=
  let n := c.toNat
  if n < 128 then [n]
  else if n < 2048 then [192 + n / 64, 128 + n % 64]
  else if n < 65536 then [224 + n / 4096, 128 + (n / 64) % 64, 128 + n % 64]
  else [240 + n / 262144, 128 + (n / 4096) % 64, 128 + (n / 64) % 64, 128 + n % 64]

def utf8 (s : String) : List Nat := s.data.foldr (fun c acc => utf8Char c ++ acc) []

/-- `hashlib.sha256(s.encode("utf-8")).hexdigest()`. -/
def sha256hex (s : String) : String := hexDigest (sha256words (utf8 s))

/-! ## JSON values and Python dict semantics -/

/-- The JSON value model (`json.loads`/`json.dumps` data; floats are outside
the claims' scope). -/
inductive Jval where
  | jnull
  | jbool (b : Bool)
  | jnum (n : Int)
  | jstr (s : String)
  | jarr (elems : List Jval)
  | jobj (fields : List (String × Jval))

/-- Python truthiness of a JSON value. -/
def Jval.truthy : Jval → Bool
  | .jnull => false
  | .jbool b => b
  | .jnum n => n != 0
  | .jstr s => s != ""
  | .jarr l => !l.isEmpty
  | .jobj l => !l.isEmpty

/-- First-match association lookup (Python dicts keep keys unique, so this is
dict indexing). -/
def dget : List (String × Jval) → String → Option Jval
  | [], _ => none
  | (k, v) :: rest, key => if k = key then some v else dget rest key

/-- `d.get(key)`: `None` (JSON null) when absent. -/
def pyGet (d : List (String × Jval)) (k : String) : Jval := (dget d k).getD .jnull

/-- `d[key] = v` on an insertion-ordered dict: replace in place if the key
exists, else append. -/
def dictSet (m : List (String × Jval)) (k : String) (v : Jval) :
    List (String × Jval) :=
  if (dget m k).isSome then m.map (fun p => if p.1 = k then (k, v) else p)
  else m ++ [(k, v)]

/-- Python `<` on strings: lexicographic comparison of code points
(executable; `String.decidableLT` does not reduce in the kernel). -/
def charsLt : List Char → List Char → Bool
  | [], [] => false
  | [], _ :: _ => true
  | _ :: _, [] => false
  | a :: as, b :: bs =>
    if a.toNat < b.toNat then true
    else if b.toNat < a.toNat then false
    else charsLt as bs

def strLt (a b : String) : Bool := charsLt a.data b.data

/-! ## `json.dumps` -/

def uEsc4 (n : Nat) : List Char :=
  ['\\', 'u', hexChar (n / 4096 % 16), hexChar (n / 256 % 16),
   hexChar (n / 16 % 16), hexChar (n % 16)]

/-- JSON string-character escaping; `ea` is `ensure_ascii`. -/
def escChar (ea : Bool) (c : Char) : List Char :=
  if c = '"' then ['\\', '"']
  else if c = '\\' then ['\\', '\\']
  else if c = '\n' then ['\\', 'n']
  else if c = '\r' then ['\\', 'r']
  else if c = '\t' then ['\\', 't']
  else if c.toNat = 8 then ['\\', 'b']
  else if c.toNat = 12 then ['\\', 'f']
  else if c.toNat < 32 then uEsc4 c.toNat
  else if ea && 127 ≤ c.toNat then
    if c.toNat < 65536 then uEsc4 c.toNat
    else uEsc4 (55296 + (c.toNat - 65536) / 1024) ++
         uEsc4 (56320 + (c.toNat - 65536) % 1024)
  else [c]

def jstrLit (ea : Bool) (s : String) : List Char :=
  '"' :: (s.data.foldr (fun c acc => escChar ea c ++ acc) [] ++ ['"'])

def joinSep (sep : List Char) : List (List Char) → List Char
  | [] => []
  | [x] => x
  | x :: y :: rest => x ++ sep ++ joinSep sep (y :: rest)

def insAscKey (x : String × List Char) :
    List (String × List Char) → List (String × List Char)
  | [] => [x]
  | y :: ys => if strLt y.1 x.1 then y :: insAscKey x ys else x :: y :: ys

/-- Sort rendered object members by key (the effect of `sort_keys=True`). -/
def sortPairsByKey : List (String × List Char) → List (String × List Char)
  | [] => []
  | x :: xs => insAscKey x (sortPairsByKey xs)

mutual

/-- `json.dumps` with default separators; `sk` = `sort_keys`,
`ea` = `ensure_ascii`. -/
def dumpJ (sk ea : Bool) : Jval → List Char
  | .jnull => ['n', 'u', 'l', 'l']
  | .jbool true => ['t', 'r', 'u', 'e']
  | .jbool false => ['f', 'a', 'l', 's', 'e']
  | .jnum n => (toString n).data
  | .jstr s => jstrLit ea s
  | .jarr l => '[' :: (joinSep (',' :: [' ']) (dumpList sk ea l) ++ [']'])
  | .jobj kvs =>
    let rendered := dumpPairs sk ea kvs
    let ordered := if sk then sortPairsByKey rendered else rendered
    Char.ofNat 123 ::
      (joinSep (',' :: [' '])
        (ordered.map (fun p => jstrLit ea p.1 ++ (':' :: ' ' :: p.2))) ++
       [Char.ofNat 125])

def dumpList (sk ea : Bool) : List Jval → List (List Char)
  | [] => []
  | v :: rest => dumpJ sk ea v :: dumpList sk ea rest

def dumpPairs (sk ea : Bool) : List (String × Jval) → List (String × List Char)
  | [] => []
  | (k, v) :: rest => (k, dumpJ sk ea v) :: dumpPairs sk ea rest

end

def dumpsSorted (v : Jval) : String := String.mk (dumpJ true true v)

/-- `json.dumps(rec, ensure_ascii=False)` as used by the writer. -/
def dumpsPlain (v : Jval) : String := String.mk (dumpJ false false v)

/-! ## Fingerprinting (`fingerprint` in the source) -/

/-- Python `a or b`. -/
def pyOrJ (a b : Jval) : Jval := if a.truthy then a else b

/-- `fingerprint(entry)`: sha256 over `entry.get("id") or entry.get("link")
or json.dumps(entry, sort_keys=True)`. Returns `none` exactly when Python
would raise (`.encode("utf-8")` on a truthy non-string identity value). -/
def fingerprint (d : List (String × Jval)) : Option String :=
  match pyOrJ (pyGet d "id") (pyOrJ (pyGet d "link") (.jstr (dumpsSorted (.jobj d)))) with
  | .jstr s => some (sha256hex s)
  | _ => none

/-! ## Timestamps

`Nat` microseconds on the absolute UTC timeline. `isoformat` is the model of
`datetime.isoformat()` for the program's uniform UTC renderings: fixed-width
and order-preserving, exactly as `"YYYY-MM-DDTHH:MM:SS.ffffff+00:00"` is on
the `datetime` range; `fromisoformat` is its partial inverse. -/

def TMAX : Nat := 10 ^ 30

def digitVal (c : Char) : Nat := c.toNat - 48

def natDigitsAux : Nat → Nat → List Char
  | 0, _ => []
  | _ + 1, 0 => []
  | fuel + 1, n => hexChar (n % 10) :: natDigitsAux fuel (n / 10)

/-- Decimal digits of `n`, most significant first (empty for 0). -/
def natDigits (n : Nat) : List Char := (natDigitsAux n n).reverse

def isoformat (t : Nat) : String :=
  String.mk (List.replicate (30 - (natDigits t).length) '0' ++ natDigits t)

def isDigitCh (c : Char) : Bool := 48 ≤ c.toNat && c.toNat ≤ 57

def fromisoformat (s : String) : Option Nat :=
  if s.data.length = 30 && s.data.all isDigitCh then
    some (s.data.foldl (fun a c => 10 * a + digitVal c) 0)
  else none

/-! ## Errors a run can raise -/

inductive PyErr where
  | attributeError
  | keyError
  | typeError
  | valueError
  deriving DecidableEq, Repr

/-! ## Store loader (source lines 110-118) -/

/-- The persisted store: fingerprint-keyed, insertion-ordered. -/
abbrev Store := List (String × Jval)

/-- The outcome of `json.loads` on one line of the store file: either a
`json.JSONDecodeError` or the decoded value. -/
inductive LoadLine where
  | undecodable
  | decoded (v : Jval)

/-- The loading loop: decode each line, skip lines raising
`JSONDecodeError`, key each decoded value by its recomputed fingerprint.
Only `JSONDecodeError` is caught: `rec.get(...)` inside `fingerprint`
raises `AttributeError` on a non-dict value, as does `.encode("utf-8")`
on a truthy non-string identity value; both escape the loop. -/
def loadLines : Store → List LoadLine → Except PyErr Store
  | m, [] => .ok m
  | m, .undecodable :: rest => loadLines m rest
  | m, .decoded v :: rest =>
    match v with
    | .jobj d =>
      match fingerprint d with
      | some fp => loadLines (dictSet m fp (.jobj d)) rest
      | none => .error .attributeError
    | _ => .error .attributeError

def loadStore (lines : List LoadLine) : Except PyErr Store := loadLines [] lines

/-! ## Merge-prune engine (source lines 124-148) -/

/-- A parsed feed entry: the string-keyed fields visible to `e.get(...)` and
`fingerprint`, plus the parsed date tuples. The `struct_time` tuples are
modelled as points of the timeline and kept apart from the serializable
fields (they are not JSON data). -/
structure FeedEntry where
  fields : List (String × Jval)
  published_parsed : Option Nat
  updated_parsed : Option Nat

/-- Source lines 126-131: `published` from `published_parsed` when present,
else `updated_parsed`, else `datetime.now(timezone.utc)`. -/
def entryPublished (now : Nat) (e : FeedEntry) : Nat :=
  match e.published_parsed with
  | some t => t
  | none =>
    match e.updated_parsed with
    | some t => t
    | none => now

/-- The Record literal of source lines 136-141. -/
def mkRecord (e : FeedEntry) (t : Nat) : Jval :=
  .jobj [("title", pyGet e.fields "title"), ("link", pyGet e.fields "link"),
         ("published", .jstr (isoformat t)), ("summary", pyGet e.fields "summary")]

/-- One iteration of the merge loop (source lines 124-141): window check,
then first-seen-wins insertion under the entry's fingerprint. -/
def mergeEntry (now cutoff : Nat) (m : Store) (e : FeedEntry) :
    Except PyErr Store :=
  let t := entryPublished now e
  if cutoff ≤ t then
    match fingerprint e.fields with
    | some fp => .ok (if (dget m fp).isSome then m else m ++ [(fp, mkRecord e t)])
    | none => .error .attributeError
  else .ok m

def mergeEntries (now cutoff : Nat) : Store → List FeedEntry → Except PyErr Store
  | m, [] => .ok m
  | m, e :: es =>
    match mergeEntry now cutoff m e with
    | .ok m2 => mergeEntries now cutoff m2 es
    | .error err => .error err

/-- `datetime.fromisoformat(rec["published"])` (source line 147), with the
exceptions Python raises on records that are not well-formed. -/
def recPublished (v : Jval) : Except PyErr Nat :=
  match v with
  | .jobj d =>
    match dget d "published" with
    | some (.jstr s) =>
      match fromisoformat s with
      | some t => .ok t
      | none => .error .valueError
    | some _ => .error .typeError
    | none => .error .keyError
  | _ => .error .typeError

/-- The retention-prune dict comprehension (source lines 144-148). -/
def prune (cutoff : Nat) : Store → Except PyErr Store
  | [] => .ok []
  | (fp, r) :: rest =>
    match recPublished r with
    | .ok t =>
      match prune cutoff rest with
      | .ok tail => .ok (if cutoff ≤ t then (fp, r) :: tail else tail)
      | .error err => .error err
    | .error err => .error err

/-- The merge-prune engine: the admission loop seeded from `existing`,
followed by the prune against the same window-start `cutoff`. -/
def merge (now cutoff : Nat) (existing : Store) (fetched : List FeedEntry) :
    Except PyErr Store :=
  match mergeEntries now cutoff existing fetched with
  | .ok m => prune cutoff m
  | .error err => .error err

/-! ## Durable writer (source lines 150-155) -/

/-- The writer's sort key `rec["published"]` (source line 152); total on the
well-typed records the pipeline passes to it. -/
def pubKey (v : Jval) : String :=
  match v with
  | .jobj d =>
    match dget d "published" with
    | some (.jstr s) => s
    | _ => ""
  | _ => ""

def insDesc (key : Jval → String) (x : Jval) : List Jval → List Jval
  | [] => [x]
  | y :: ys => if strLt (key x) (key y) then y :: insDesc key x ys else x :: y :: ys

/-- Python `sorted(..., reverse=True)`: stable descending sort. -/
def pySortedDesc (key : Jval → String) : List Jval → List Jval
  | [] => []
  | x :: xs => insDesc key x (pySortedDesc key xs)

/-- The order in which records reach the file (source line 152). -/
def writeOrder (m : Store) : List Jval := pySortedDesc pubKey (m.map Prod.snd)

/-- The lines written to the store file (source lines 151-153). -/
def writeLines (m : Store) : List String :=
  (writeOrder m).map (fun r => dumpsPlain r ++ "\n")

/-! ## Resilient transport (`fetch_feed`, source lines 45-83)

The retry loop lives in `requests`/`urllib3`; this models it under the
source's configuration `Retry(total=6, status_forcelist=[429, 500, 502,
503, 504], raise_on_status=False)`: a transport-level error, or a response
whose status is in the forcelist, consumes one unit of retry budget; any
other response is returned at once, after which `resp.raise_for_status()`
raises exactly for statuses ≥ 400; a per-endpoint failure is caught and
falls through to the next URL of `FEED_URLS`. -/

def STATUS_FORCELIST : List Nat := [429, 500, 502, 503, 504]

def RETRY_TOTAL : Nat := 6

inductive AttemptResult where
  | transportError
  | response (status : Nat)

inductive UrlOutcome where
  | success (status : Nat)
  | failed
  deriving DecidableEq, Repr

/-- Requests against one endpoint: `att i` is the outcome of the i-th
request; returns how many requests were issued and the endpoint outcome. -/
def runUrlAux (att : Nat → AttemptResult) : Nat → Nat → Nat × UrlOutcome
  | i, budget =>
    match att i with
    | .transportError =>
      match budget with
      | 0 => (i + 1, .failed)
      | b + 1 => runUrlAux att (i + 1) b
    | .response c =>
      if c < 400 then (i + 1, .success c)
      else if c ∈ STATUS_FORCELIST then
        match budget with
        | 0 => (i + 1, .failed)
        | b + 1 => runUrlAux att (i + 1) b
      else (i + 1, .failed)

def runUrl (att : Nat → AttemptResult) : Nat × UrlOutcome :=
  runUrlAux att 0 RETRY_TOTAL

/-- `fetch_feed`: endpoints strictly in order, first success wins; when every
candidate fails, the last exception is re-raised (`none`). -/
def fetchFeed (atts : List (Nat → AttemptResult)) : Option Nat :=
  match atts with
  | [] => none
  | att :: rest =>
    match runUrl att with
    | (_, .success c) => some c
    | (_, .failed) => fetchFeed rest

/-! ## One run of `main` (source lines 103-155) -/

inductive FetchOutcome where
  | success (entries : List FeedEntry)
  | exhausted

inductive RunError where
  | fetchExhausted
  | uncaught (e : PyErr)

def RETENTION_DAYS : Nat := 4

/-- `timedelta(days=RETENTION_DAYS)` in timeline microseconds. -/
def RETENTION_DELTA : Nat := RETENTION_DAYS * 86400 * 1000000

/-- One run of `main` over the store file: `jparse` is the `json.loads`
collaborator applied per line, `file` the current contents of `OUT_FILE`
(`none` = absent), `fetch` the outcome of `fetch_feed` plus the feed-syntax
parser. Returns the file contents after the run and the process outcome
(`.ok count` is the success log line; `.error` is an uncaught exception,
hence a non-zero exit). -/
def mainRun (jparse : String → LoadLine) (file : Option (List String))
    (fetch : FetchOutcome) (now : Nat) :
    Option (List String) × Except RunError Nat :=
  let cutoff := now - RETENTION_DELTA
  match loadStore ((file.getD []).map jparse) with
  | .error e => (file, .error (.uncaught e))
  | .ok existing =>
    match fetch with
    | .exhausted => (file, .error .fetchExhausted)
    | .success entries =>
      match merge now cutoff existing entries with
      | .error e => (file, .error (.uncaught e))
      | .ok kept => (some (writeLines kept), .ok kept.length)

/-! ## Derived definitions used by the theorems -/

/-- Value of a little-endian digit list. -/
def valLE : List Char → Nat
  | [] => 0
  | c :: cs => digitVal c + 10 * valLE cs

/-- The prune predicate of source line 147 as a Boolean. -/
def keepB (cutoff : Nat) (p : String × Jval) : Bool :=
  match recPublished p.2 with
  | .ok t => decide (cutoff ≤ t)
  | .error _ => false

/-- `fingerprint` applied to a loaded record value. -/
def fingerprintV : Jval → Option String
  | .jobj d => fingerprint d
  | _ => none

/-- The `link` field of a record, when present as a string. -/
def recLink : Jval → Option String
  | .jobj d =>
    match dget d "link" with
    | some (.jstr s) => some s
    | _ => none
  | _ => none

/-- The fallback identity material as §4.1 of the spec words it (spec-side
definition for the refinement comparison): the link when present and
non-empty, else the stable serialization of all fields. -/
def specMaterialLink (d : List (String × Jval)) : String :=
  match dget d "link" with
  | some (.jstr s) => if s = "" then dumpsSorted (.jobj d) else s
  | _ => dumpsSorted (.jobj d)

/-- The identity material as §4.1 of the spec words it (spec-side definition
for the refinement comparison): the identity hint when present and
non-empty, else `specMaterialLink`. -/
def specMaterial (d : List (String × Jval)) : String :=
  match dget d "id" with
  | some (.jstr s) => if s = "" then specMaterialLink d else s
  | _ => specMaterialLink d

def isOptStr : Jval → Bool
  | .jnull => true
  | .jstr _ => true
  | _ => false

/-- A well-formed persisted Record per the data model (§3): a JSON object
with exactly the four Record fields, `published` a required parseable
timestamp, the others optional strings. -/
def isWfRecord : Jval → Bool
  | .jobj d =>
    (match dget d "published" with
     | some (.jstr s) => (fromisoformat s).isSome
     | _ => false) &&
    d.all (fun p =>
      (p.1 == "title" || p.1 == "link" || p.1 == "summary" || p.1 == "published") &&
      (p.1 == "published" || isOptStr p.2)) &&
    decide (d.map Prod.fst).Nodup
  | _ => false

/-- The decoded values among the store file's lines. -/
def decodedRecs (lines : List LoadLine) : List Jval :=
  lines.filterMap (fun l =>
    match l with
    | .decoded v => some v
    | .undecodable => none)

/-! ### Concrete instances for the closed counterexample theorems -/

/-- A fetched entry carrying link `"x"`, published inside any window that
starts at or before 60. -/
def cexEntry : FeedEntry := ⟨[("link", .jstr "x")], some 60, none⟩

/-- `fingerprint(cexEntry)`. -/
def cexFp : String := sha256hex "x"

/-- A stored Record for the same link `"x"`, published at 10 (outside a
window starting at 50). -/
def cexStale : Jval :=
  .jobj [("title", .jnull), ("link", .jstr "x"),
         ("published", .jstr (isoformat 10)), ("summary", .jnull)]

def cexStore : Store := [(cexFp, cexStale)]

/-- A fetched entry carrying link `"y"`, published at 10 (outside a window
starting at 50). -/
def cexStaleEntry : FeedEntry := ⟨[("link", .jstr "y")], some 10, none⟩

/-- A fetched entry for link `"a"` whose summary differs from the stored
record's fields. -/
def cexEntryA : FeedEntry :=
  ⟨[("link", .jstr "a"), ("summary", .jstr "B")], some 60, none⟩

/-- A fetched entry carrying both a feed-supplied id and a link. -/
def cexHintEntry : FeedEntry :=
  ⟨[("id", .jstr "guid-1"), ("link", .jstr "x")], some 60, none⟩

/-- Two records with equal `published` and distinct links `"a"`, `"b"`. -/
def cexRecA : Jval :=
  .jobj [("title", .jstr "first"), ("link", .jstr "a"),
         ("published", .jstr (isoformat 77)), ("summary", .jnull)]

def cexRecB : Jval :=
  .jobj [("title", .jstr "second"), ("link", .jstr "b"),
         ("published", .jstr (isoformat 77)), ("summary", .jnull)]

def cexFpA : String := sha256hex "a"

def cexFpB : String := sha256hex "b"

/-- A store holding `cexRecA` before `cexRecB`, keyed by their genuine
fingerprints; `cexFpB < cexFpA` as strings. -/
def cexWriterStore : Store := [(cexFpA, cexRecA), (cexFpB, cexRecB)]

/-! ## Helper lemmas: decimal rendering roundtrip -/

theorem digitVal_hexChar {r : Nat} (h : r < 10) : digitVal (hexChar r) = r := by
  interval_cases r <;> decide

theorem isDigitCh_hexChar {r : Nat} (h : r < 10) : isDigitCh (hexChar r) = true := by
  interval_cases r <;> decide

theorem valLE_natDigitsAux : ∀ fuel n, n ≤ fuel → valLE (natDigitsAux fuel n) = n := by
  intro fuel
  induction fuel with
  | zero => intro n h; interval_cases n; simp [natDigitsAux, valLE]
  | succ f ih =>
    intro n h
    match n with
    | 0 => simp [natDigitsAux, valLE]
    | m + 1 =>
      have hdiv : (m + 1) / 10 ≤ f := by
        have : (m + 1) / 10 < m + 1 := Nat.div_lt_self (Nat.succ_pos m) (by omega)
        omega
      simp only [natDigitsAux, valLE]
      rw [digitVal_hexChar (Nat.mod_lt _ (by omega)), ih _ hdiv]
      omega

theorem all_isDigitCh_natDigitsAux : ∀ fuel n, (natDigitsAux fuel n).all isDigitCh = true := by
  intro fuel
  induction fuel with
  | zero => intro n; simp [natDigitsAux]
  | succ f ih =>
    intro n
    match n with
    | 0 => simp [natDigitsAux]
    | m + 1 =>
      simp only [natDigitsAux, List.all_cons, Bool.and_eq_true]
      exact ⟨isDigitCh_hexChar (Nat.mod_lt _ (by omega)), ih _⟩

theorem length_natDigitsAux : ∀ fuel n k, n ≤ fuel → n < 10 ^ k →
    (natDigitsAux fuel n).length ≤ k := by
  intro fuel
  induction fuel with
  | zero => intro n k h _; interval_cases n; simp [natDigitsAux]
  | succ f ih =>
    intro n k h hk
    match n with
    | 0 => simp [natDigitsAux]
    | m + 1 =>
      have hkpos : 1 ≤ k := by
        rcases Nat.eq_zero_or_pos k with hk0 | hk0
        · subst hk0
          rw [pow_zero] at hk
          omega
        · exact hk0
      have hdiv : (m + 1) / 10 ≤ f := by
        have : (m + 1) / 10 < m + 1 := Nat.div_lt_self (Nat.succ_pos m) (by omega)
        omega
      have hdivk : (m + 1) / 10 < 10 ^ (k - 1) := by
        rw [Nat.div_lt_iff_lt_mul (by omega)]
        calc m + 1 < 10 ^ k := hk
        _ = 10 ^ (k - 1) * 10 := by
            rw [← pow_succ]
            congr 1
            omega
      simp only [natDigitsAux, List.length_cons]
      have := ih ((m + 1) / 10) (k - 1) hdiv hdivk
      omega

/-- Big-endian decimal decoding, the `foldl` of `fromisoformat`. -/
theorem decodeBE_reverse : ∀ cs : List Char,
    List.foldl (fun a c => 10 * a + digitVal c) 0 cs.reverse = valLE cs := by
  intro cs
  induction cs with
  | nil => simp [valLE]
  | cons c rest ih =>
    simp only [List.reverse_cons, List.foldl_append, List.foldl_cons, List.foldl_nil, valLE, ih]
    omega

theorem decodeBE_replicate_zero (k : Nat) :
    List.foldl (fun a c => 10 * a + digitVal c) 0 (List.replicate k '0') = 0 := by
  induction k with
  | zero => simp
  | succ n ih => simpa [List.replicate_succ, digitVal] using ih

theorem fromisoformat_isoformat {t : Nat} (h : t < TMAX) :
    fromisoformat (isoformat t) = some t := by
  have hlen : (natDigits t).length ≤ 30 := by
    simpa [natDigits] using length_natDigitsAux t t 30 (le_refl t) h
  have hall : (natDigits t).all isDigitCh = true := by
    simpa [natDigits, List.all_reverse] using all_isDigitCh_natDigitsAux t t
  have hdata : (isoformat t).data =
      List.replicate (30 - (natDigits t).length) '0' ++ natDigits t := rfl
  have hcond : ((isoformat t).data.length = 30 && (isoformat t).data.all isDigitCh) = true := by
    rw [hdata, Bool.and_eq_true]
    refine ⟨?_, ?_⟩
    · simp only [List.length_append, List.length_replicate, decide_eq_true_eq]
      omega
    · rw [List.all_append, Bool.and_eq_true]
      refine ⟨?_, hall⟩
      rw [List.all_eq_true]
      intro c hc
      rw [List.eq_of_mem_replicate hc]
      decide
  unfold fromisoformat
  rw [if_pos hcond]
  congr 1
  rw [hdata, List.foldl_append, decodeBE_replicate_zero]
  unfold natDigits
  rw [decodeBE_reverse]
  exact valLE_natDigitsAux t t (le_refl t)

/-! ## Helper lemmas: insertion-ordered dicts -/

theorem dget_cons_self {k : String} {v : Jval} {rest : Store} :
    dget ((k, v) :: rest) k = some v := by
  simp [dget]

theorem dget_cons_ne {k' k : String} {v : Jval} {rest : Store} (h : k' ≠ k) :
    dget ((k', v) :: rest) k = dget rest k := by
  simp [dget, h]

theorem dget_append_some {a b : Store} {k : String} {v : Jval}
    (h : dget a k = some v) : dget (a ++ b) k = some v := by
  induction a with
  | nil => simp [dget] at h
  | cons p rest ih =>
    obtain ⟨k', v'⟩ := p
    by_cases hk : k' = k
    · subst hk
      rw [dget_cons_self] at h
      rw [List.cons_append, dget_cons_self]
      exact h
    · rw [dget_cons_ne hk] at h
      rw [List.cons_append, dget_cons_ne hk]
      exact ih h

theorem dget_append_none {a b : Store} {k : String}
    (h : dget a k = none) : dget (a ++ b) k = dget b k := by
  induction a with
  | nil => simp
  | cons p rest ih =>
    obtain ⟨k', v'⟩ := p
    by_cases hk : k' = k
    · subst hk
      rw [dget_cons_self] at h
      cases h
    · rw [dget_cons_ne hk] at h
      rw [List.cons_append, dget_cons_ne hk]
      exact ih h

theorem dget_mem {m : Store} {k : String} {v : Jval}
    (h : dget m k = some v) : (k, v) ∈ m := by
  induction m with
  | nil => simp [dget] at h
  | cons p rest ih =>
    obtain ⟨k', v'⟩ := p
    by_cases hk : k' = k
    · subst hk
      rw [dget_cons_self] at h
      cases h
      exact List.mem_cons_self _ _
    · rw [dget_cons_ne hk] at h
      exact List.mem_cons_of_mem _ (ih h)

theorem dget_eq_none_of_not_mem {m : Store} {k : String}
    (h : k ∉ m.map Prod.fst) : dget m k = none := by
  induction m with
  | nil => rfl
  | cons p rest ih =>
    obtain ⟨k', v'⟩ := p
    simp only [List.map_cons, List.mem_cons] at h
    push_neg at h
    rw [dget_cons_ne (fun hc => h.1 hc.symm)]
    exact ih h.2

theorem dget_isSome_of_mem {m : Store} {k : String} {v : Jval}
    (h : (k, v) ∈ m) : (dget m k).isSome = true := by
  induction m with
  | nil => simp at h
  | cons p rest ih =>
    obtain ⟨k', v'⟩ := p
    rcases List.mem_cons.mp h with heq | hmem
    · cases heq
      rw [dget_cons_self]
      rfl
    · by_cases hk : k' = k
      · subst hk
        rw [dget_cons_self]
        rfl
      · rw [dget_cons_ne hk]
        exact ih hmem

theorem mem_of_dget_isSome {m : Store} {k : String}
    (h : (dget m k).isSome = true) : k ∈ m.map Prod.fst := by
  by_contra hc
  rw [dget_eq_none_of_not_mem hc] at h
  simp at h

/-- With unique keys, the first-match lookup of a filtered dict. -/
theorem dget_filter {m : Store} {k : String} {v : Jval} (p : String × Jval → Bool)
    (hnd : (m.map Prod.fst).Nodup) (h : dget m k = some v) :
    dget (m.filter p) k = if p (k, v) then some v else none := by
  induction m with
  | nil => simp [dget] at h
  | cons q rest ih =>
    obtain ⟨k', v'⟩ := q
    simp only [List.map_cons, List.nodup_cons] at hnd
    by_cases hk : k' = k
    · subst hk
      rw [dget_cons_self] at h
      cases h
      by_cases hp : p (k', v)
      · rw [List.filter_cons, if_pos (by simpa using hp), dget_cons_self, if_pos hp]
      · have hnone : dget (rest.filter p) k' = none := by
          apply dget_eq_none_of_not_mem
          intro hc
          obtain ⟨pair, hpair, hfst⟩ := List.mem_map.mp hc
          exact hnd.1 (List.mem_map.mpr ⟨pair, (List.mem_filter.mp hpair).1, hfst⟩)
        rw [List.filter_cons, if_neg (by simpa using hp), if_neg hp]
        exact hnone
    · rw [dget_cons_ne hk] at h
      by_cases hp : p (k', v')
      · rw [List.filter_cons, if_pos (by simpa using hp), dget_cons_ne hk]
        exact ih hnd.2 h
      · rw [List.filter_cons, if_neg (by simpa using hp)]
        exact ih hnd.2 h

/-! ## Helper lemmas: merge-prune engine -/

theorem recPublished_mkRecord {e : FeedEntry} {t : Nat} (h : t < TMAX) :
    recPublished (mkRecord e t) = .ok t := by
  have hdget : dget [("title", pyGet e.fields "title"), ("link", pyGet e.fields "link"),
      ("published", Jval.jstr (isoformat t)), ("summary", pyGet e.fields "summary")]
      "published" = some (.jstr (isoformat t)) := by
    rw [dget_cons_ne (by decide), dget_cons_ne (by decide), dget_cons_self]
  simp only [recPublished, mkRecord, hdget, fromisoformat_isoformat h]

theorem keepB_mkRecord {cutoff : Nat} {e : FeedEntry} {t : Nat}
    (h : t < TMAX) (hle : cutoff ≤ t) :
    keepB cutoff (fp, mkRecord e t) = true := by
  simp [keepB, recPublished_mkRecord h, hle]

theorem mergeEntry_cases {now cutoff : Nat} {m m2 : Store} {e : FeedEntry}
    (h : mergeEntry now cutoff m e = .ok m2) :
    m2 = m ∨
    ∃ fp, fingerprint e.fields = some fp ∧ dget m fp = none ∧
      cutoff ≤ entryPublished now e ∧
      m2 = m ++ [(fp, mkRecord e (entryPublished now e))] := by
  by_cases hle : cutoff ≤ entryPublished now e
  · cases hfp : fingerprint e.fields with
    | none =>
      simp only [mergeEntry, if_pos hle, hfp] at h
      cases h
    | some fp =>
      by_cases hex : (dget m fp).isSome = true
      · simp only [mergeEntry, if_pos hle, hfp, if_pos hex] at h
        cases h
        exact Or.inl rfl
      · simp only [mergeEntry, if_pos hle, hfp, if_neg hex] at h
        cases h
        refine Or.inr ⟨fp, rfl, ?_, hle, rfl⟩
        cases hd : dget m fp
        · rfl
        · rw [hd] at hex
          simp at hex
  · simp only [mergeEntry, if_neg hle] at h
    cases h
    exact Or.inl rfl

theorem mergeEntry_ok {now cutoff : Nat} {m : Store} {e : FeedEntry}
    (h : (fingerprint e.fields).isSome = true) :
    ∃ m2, mergeEntry now cutoff m e = .ok m2 := by
  simp only [mergeEntry]
  by_cases hle : cutoff ≤ entryPublished now e
  · rw [if_pos hle]
    cases hfp : fingerprint e.fields with
    | none => rw [hfp] at h; simp at h
    | some fp => exact ⟨_, rfl⟩
  · rw [if_neg hle]
    exact ⟨m, rfl⟩

theorem mergeEntries_ok {now cutoff : Nat} :
    ∀ (es : List FeedEntry) (m : Store),
    (∀ e ∈ es, (fingerprint e.fields).isSome = true) →
    ∃ m', mergeEntries now cutoff m es = .ok m' := by
  intro es
  induction es with
  | nil => exact fun m _ => ⟨m, rfl⟩
  | cons e rest ih =>
    intro m h
    obtain ⟨m2, hm2⟩ := @mergeEntry_ok now cutoff m e
      (h e (List.mem_cons_self _ _))
    obtain ⟨m', hm'⟩ := ih m2 (fun x hx => h x (List.mem_cons_of_mem _ hx))
    exact ⟨m', by simp only [mergeEntries, hm2, hm']⟩

theorem mergeEntries_structure {now cutoff : Nat} :
    ∀ (es : List FeedEntry) (m m' : Store),
    mergeEntries now cutoff m es = .ok m' →
    ∃ ext, m' = m ++ ext ∧
      ∀ p ∈ ext, dget m p.1 = none ∧
        ∃ e ∈ es, fingerprint e.fields = some p.1 ∧
          p.2 = mkRecord e (entryPublished now e) ∧
          cutoff ≤ entryPublished now e := by
  intro es
  induction es with
  | nil =>
    intro m m' h
    cases h
    exact ⟨[], by simp, by simp⟩
  | cons e rest ih =>
    intro m m' h
    simp only [mergeEntries] at h
    cases hme : mergeEntry now cutoff m e with
    | error err => rw [hme] at h; cases h
    | ok m2 =>
      rw [hme] at h
      obtain ⟨ext2, hm', hprops⟩ := ih m2 m' h
      rcases mergeEntry_cases hme with heq | ⟨fp, hfp, hnone, hle, heq⟩
      · subst heq
        refine ⟨ext2, hm', fun p hp => ?_⟩
        obtain ⟨hn, e2, he2, rest2⟩ := hprops p hp
        exact ⟨hn, e2, List.mem_cons_of_mem _ he2, rest2⟩
      · subst heq
        refine ⟨(fp, mkRecord e (entryPublished now e)) :: ext2, by simpa using hm',
          fun p hp => ?_⟩
        rcases List.mem_cons.mp hp with heq2 | hmem
        · subst heq2
          exact ⟨hnone, e, List.mem_cons_self _ _, hfp, rfl, hle⟩
        · obtain ⟨hn, e2, he2, rest2⟩ := hprops p hmem
          refine ⟨?_, e2, List.mem_cons_of_mem _ he2, rest2⟩
          rcases hd : dget m p.1 with _ | v2
          · rfl
          · have h2 := @dget_append_some m
              [(fp, mkRecord e (entryPublished now e))] p.1 v2 hd
            rw [h2] at hn
            cases hn

theorem mergeEntries_nodup {now cutoff : Nat} :
    ∀ (es : List FeedEntry) (m m' : Store),
    mergeEntries now cutoff m es = .ok m' →
    (m.map Prod.fst).Nodup → (m'.map Prod.fst).Nodup := by
  intro es
  induction es with
  | nil => intro m m' h hnd; cases h; exact hnd
  | cons e rest ih =>
    intro m m' h hnd
    simp only [mergeEntries] at h
    cases hme : mergeEntry now cutoff m e with
    | error err => rw [hme] at h; cases h
    | ok m2 =>
      rw [hme] at h
      refine ih m2 m' h ?_
      rcases mergeEntry_cases hme with heq | ⟨fp, _, hnone, _, heq⟩
      · subst heq
        exact hnd
      · subst heq
        rw [List.map_append, List.nodup_append]
        refine ⟨hnd, by simp, ?_⟩
        intro a ha hb
        simp only [List.map_cons, List.map_nil, List.mem_singleton] at hb
        subst hb
        obtain ⟨⟨k0, v0⟩, hpair, hfst⟩ := List.mem_map.mp ha
        simp only at hfst
        subst hfst
        have hsome := dget_isSome_of_mem hpair
        rw [hnone] at hsome
        simp at hsome

theorem mergeEntries_mono {now cutoff : Nat} {es : List FeedEntry}
    {m m' : Store} {fp : String} {v : Jval}
    (h : mergeEntries now cutoff m es = .ok m') (hv : dget m fp = some v) :
    dget m' fp = some v := by
  obtain ⟨ext, heq, _⟩ := mergeEntries_structure es m m' h
  subst heq
  exact dget_append_some hv

theorem mergeEntries_presence {now cutoff : Nat} :
    ∀ (es : List FeedEntry) (m m' : Store),
    mergeEntries now cutoff m es = .ok m' →
    ∀ e ∈ es, ∀ fp, fingerprint e.fields = some fp →
      cutoff ≤ entryPublished now e → (dget m' fp).isSome = true := by
  intro es
  induction es with
  | nil => intro m m' _ e he; simp at he
  | cons e0 rest ih =>
    intro m m' h e he fp hfp hle
    simp only [mergeEntries] at h
    cases hme : mergeEntry now cutoff m e0 with
    | error err => rw [hme] at h; cases h
    | ok m2 =>
      rw [hme] at h
      rcases List.mem_cons.mp he with heq | hmem
      · subst heq
        have hm2 : (dget m2 fp).isSome = true := by
          by_cases hex : (dget m fp).isSome = true
          · simp only [mergeEntry, if_pos hle, hfp, if_pos hex] at hme
            cases hme
            exact hex
          · simp only [mergeEntry, if_pos hle, hfp, if_neg hex] at hme
            cases hme
            have hnone : dget m fp = none := by
              cases hd : dget m fp
              · rfl
              · rw [hd] at hex
                simp at hex
            rw [dget_append_none hnone, dget_cons_self]
            rfl
        cases hd : dget m2 fp with
        | none => rw [hd] at hm2; simp at hm2
        | some v => rw [mergeEntries_mono h hd]; rfl
      · exact ih m2 m' h e hmem fp hfp hle

theorem prune_eq_filter {cutoff : Nat} :
    ∀ m : Store,
    (∀ p ∈ m, ∃ t, recPublished p.2 = Except.ok t) →
    prune cutoff m = .ok (m.filter (keepB cutoff)) := by
  intro m
  induction m with
  | nil => intro _; rfl
  | cons p rest ih =>
    intro h
    obtain ⟨fp, r⟩ := p
    obtain ⟨t, ht⟩ := h (fp, r) (List.mem_cons_self _ _)
    have hrest := ih (fun q hq => h q (List.mem_cons_of_mem _ hq))
    have hk : keepB cutoff (fp, r) = decide (cutoff ≤ t) := by
      simp [keepB, ht]
    simp only [prune, ht, hrest, List.filter_cons, hk]
    by_cases hle : cutoff ≤ t
    · simp [hle]
    · simp [hle]

theorem prune_id_of_all_keep {cutoff : Nat} :
    ∀ m : Store, (∀ p ∈ m, keepB cutoff p = true) → prune cutoff m = .ok m := by
  intro m
  induction m with
  | nil => intro _; rfl
  | cons p rest ih =>
    intro h
    obtain ⟨fp, r⟩ := p
    have hk := h (fp, r) (List.mem_cons_self _ _)
    have hrest := ih (fun q hq => h q (List.mem_cons_of_mem _ hq))
    rcases ht : recPublished r with e | t
    · rw [keepB] at hk
      rw [ht] at hk
      cases hk
    · have hle : cutoff ≤ t := by
        rw [keepB, ht] at hk
        simpa using hk
      simp [prune, ht, hrest, hle]

/-! ## Helper lemmas: fingerprint material selection -/

theorem fingerprint_of_truthy_id {d : List (String × Jval)} {s : String}
    (hdid : dget d "id" = some (.jstr s)) (hs : s ≠ "") :
    fingerprint d = some (sha256hex s) := by
  have hg : pyGet d "id" = .jstr s := by simp [pyGet, hdid]
  simp only [fingerprint, pyOrJ, hg]
  simp [Jval.truthy, hs]

theorem fingerprint_of_truthy_link {d : List (String × Jval)} {s : String}
    (hidF : (pyGet d "id").truthy = false)
    (hdl : dget d "link" = some (.jstr s)) (hs : s ≠ "") :
    fingerprint d = some (sha256hex s) := by
  have hg : pyGet d "link" = .jstr s := by simp [pyGet, hdl]
  simp only [fingerprint, pyOrJ, hidF, hg, Bool.false_eq_true, if_false]
  simp [Jval.truthy, hs]

theorem fingerprint_fallback {d : List (String × Jval)}
    (hidF : (pyGet d "id").truthy = false)
    (hlinkF : (pyGet d "link").truthy = false) :
    fingerprint d = some (sha256hex (dumpsSorted (.jobj d))) := by
  simp only [fingerprint, pyOrJ, hidF, hlinkF, Bool.false_eq_true, if_false]

theorem fingerprint_specLink {d : List (String × Jval)}
    (hlink : ∀ v, dget d "link" = some v → v = .jnull ∨ ∃ s, v = .jstr s)
    (hidF : (pyGet d "id").truthy = false) :
    fingerprint d = some (sha256hex (specMaterialLink d)) := by
  rcases hdl : dget d "link" with _ | w
  · have hlinkF : (pyGet d "link").truthy = false := by
      simp [pyGet, hdl, Jval.truthy]
    rw [fingerprint_fallback hidF hlinkF]
    simp [specMaterialLink, hdl]
  · rcases hlink w hdl with rfl | ⟨s, rfl⟩
    · have hlinkF : (pyGet d "link").truthy = false := by
        simp [pyGet, hdl, Jval.truthy]
      rw [fingerprint_fallback hidF hlinkF]
      simp [specMaterialLink, hdl]
    · by_cases hs : s = ""
      · subst hs
        have hlinkF : (pyGet d "link").truthy = false := by
          simp [pyGet, hdl, Jval.truthy]
        rw [fingerprint_fallback hidF hlinkF]
        simp [specMaterialLink, hdl]
      · rw [fingerprint_of_truthy_link hidF hdl hs]
        simp [specMaterialLink, hdl, hs]

/-! ## C3: fingerprint refines the specified selection algorithm -/

/-- **C3.** `fingerprint` is the hex digest of SHA-256 over the UTF-8
encoding of exactly the material §4.1 describes: the identity hint when
present and non-empty, else the link when present and non-empty, else the
stable-key-order serialization of the fields; consequently two items with
the same non-empty identity hint (or, both lacking a truthy hint, the same
non-empty link) always get equal fingerprints whatever their other fields,
summaries included. -/
theorem fingerprint_spec (d : List (String × Jval))
    (hid : ∀ v, dget d "id" = some v → v = .jnull ∨ ∃ s, v = .jstr s)
    (hlink : ∀ v, dget d "link" = some v → v = .jnull ∨ ∃ s, v = .jstr s) :
    fingerprint d = some (sha256hex (specMaterial d)) ∧
    (∀ (d2 : List (String × Jval)) (s : String), s ≠ "" →
      dget d "id" = some (.jstr s) → dget d2 "id" = some (.jstr s) →
      fingerprint d2 = fingerprint d) ∧
    (∀ (d2 : List (String × Jval)) (s : String), s ≠ "" →
      (pyGet d "id").truthy = false → (pyGet d2 "id").truthy = false →
      dget d "link" = some (.jstr s) → dget d2 "link" = some (.jstr s) →
      fingerprint d2 = fingerprint d) := by
  refine ⟨?_, ?_, ?_⟩
  · rcases hdid : dget d "id" with _ | v
    · have hidF : (pyGet d "id").truthy = false := by
        simp [pyGet, hdid, Jval.truthy]
      rw [fingerprint_specLink hlink hidF]
      simp [specMaterial, hdid]
    · rcases hid v hdid with rfl | ⟨s, rfl⟩
      · have hidF : (pyGet d "id").truthy = false := by
          simp [pyGet, hdid, Jval.truthy]
        rw [fingerprint_specLink hlink hidF]
        simp [specMaterial, hdid]
      · by_cases hs : s = ""
        · subst hs
          have hidF : (pyGet d "id").truthy = false := by
            simp [pyGet, hdid, Jval.truthy]
          rw [fingerprint_specLink hlink hidF]
          simp [specMaterial, hdid]
        · rw [fingerprint_of_truthy_id hdid hs]
          simp [specMaterial, hdid, hs]
  · intro d2 s hs hd1 hd2
    rw [fingerprint_of_truthy_id hd1 hs, fingerprint_of_truthy_id hd2 hs]
  · intro d2 s hs hf1 hf2 hl1 hl2
    rw [fingerprint_of_truthy_link hf1 hl1 hs, fingerprint_of_truthy_link hf2 hl2 hs]

/-- Witness for `fingerprint_spec` at concrete items: a dict with id
`"g1"`, and a second dict with the same id but a different summary. -/
theorem fingerprint_spec_witness :
    fingerprint [("id", Jval.jstr "g1"), ("link", Jval.jstr "L"),
                 ("summary", Jval.jstr "A")] =
      some (sha256hex (specMaterial [("id", Jval.jstr "g1"), ("link", Jval.jstr "L"),
                                     ("summary", Jval.jstr "A")])) ∧
    fingerprint [("id", Jval.jstr "g1"), ("summary", Jval.jstr "B")] =
      fingerprint [("id", Jval.jstr "g1"), ("link", Jval.jstr "L"),
                   ("summary", Jval.jstr "A")] := by
  have h := fingerprint_spec
    [("id", Jval.jstr "g1"), ("link", Jval.jstr "L"), ("summary", Jval.jstr "A")]
    ?_ ?_
  · exact ⟨h.1, h.2.1 [("id", Jval.jstr "g1"), ("summary", Jval.jstr "B")] "g1"
      (by decide) rfl rfl⟩
  · intro v hv
    rw [dget_cons_self] at hv
    cases hv
    exact Or.inr ⟨_, rfl⟩
  · intro v hv
    rw [dget_cons_ne (by decide), dget_cons_self] at hv
    cases hv
    exact Or.inr ⟨_, rfl⟩

/-! ## C4: a failed fetch mutates nothing and exits non-zero -/

/-- **C4.** For every run in which the fetch step fails after exhausting all
endpoint candidates, the run terminates with a non-zero outcome and the
persisted store file is left byte-for-byte unchanged: no write or other
mutation of the store happens on a failed run. -/
theorem fetch_failure_preserves_store (jparse : String → LoadLine)
    (file : Option (List String)) (now : Nat) :
    (mainRun jparse file .exhausted now).1 = file ∧
    ∃ err, (mainRun jparse file .exhausted now).2 = .error err := by
  simp only [mainRun]
  cases hload : loadStore ((file.getD []).map jparse) with
  | error e => exact ⟨rfl, _, rfl⟩
  | ok ex => exact ⟨rfl, _, rfl⟩

/-! ## C9: published-date fallback chain -/

/-- **C9.** Normalization resolves a Record's `published` from the parsed
published time when present, else the parsed updated time, else the current
wall-clock time; an entry lacking both dates is still considered for
admission (timestamped `now`): when the window admits `now` and its
fingerprint is fresh it is inserted, never silently dropped for missing
dates. -/
theorem published_fallback (now cutoff : Nat) (e : FeedEntry) (m : Store)
    (fp : String) :
    (∀ t, e.published_parsed = some t → entryPublished now e = t) ∧
    (e.published_parsed = none → ∀ t, e.updated_parsed = some t →
      entryPublished now e = t) ∧
    (e.published_parsed = none → e.updated_parsed = none →
      entryPublished now e = now) ∧
    (e.published_parsed = none → e.updated_parsed = none → cutoff ≤ now →
      fingerprint e.fields = some fp → dget m fp = none →
      mergeEntry now cutoff m e = .ok (m ++ [(fp, mkRecord e now)])) := by
  refine ⟨?_, ?_, ?_, ?_⟩
  · intro t ht
    simp [entryPublished, ht]
  · intro hp t ht
    simp [entryPublished, hp, ht]
  · intro hp hu
    simp [entryPublished, hp, hu]
  · intro hp hu hle hfp hnone
    have hpub : entryPublished now e = now := by simp [entryPublished, hp, hu]
    simp only [mergeEntry, hpub, if_pos hle, hfp, hnone, Option.isSome_none,
      Bool.false_eq_true, if_false]

/-- Witness for `published_fallback` at a concrete dateless entry. -/
theorem published_fallback_witness :
    entryPublished 500 ⟨[("link", Jval.jstr "w")], none, none⟩ = 500 ∧
    mergeEntry 500 400 [] ⟨[("link", Jval.jstr "w")], none, none⟩ =
      .ok [(sha256hex "w", mkRecord ⟨[("link", Jval.jstr "w")], none, none⟩ 500)] := by
  have h := published_fallback 500 400 ⟨[("link", Jval.jstr "w")], none, none⟩ []
    (sha256hex "w")
  refine ⟨h.2.2.1 rfl rfl, ?_⟩
  have h2 := h.2.2.2 rfl rfl (by omega) rfl rfl
  simpa using h2

/-! ## C6: retry policy per endpoint -/

theorem forcelist_not_lt_400 {c : Nat} (hc : c ∈ STATUS_FORCELIST) : ¬ c < 400 := by
  simp [STATUS_FORCELIST] at hc
  rcases hc with rfl | rfl | rfl | rfl | rfl <;> decide

theorem runUrlAux_const_forcelist {c : Nat} {att : Nat → AttemptResult}
    (hs : ∀ i, att i = .response c) (hc : c ∈ STATUS_FORCELIST) :
    ∀ budget i, runUrlAux att i budget = (i + budget + 1, .failed) := by
  have hge := forcelist_not_lt_400 hc
  intro budget
  induction budget with
  | zero =>
    intro i
    rw [runUrlAux]
    simp only [hs i]
    rw [if_neg hge, if_pos hc]
  | succ b ih =>
    intro i
    rw [runUrlAux]
    simp only [hs i]
    rw [if_neg hge, if_pos hc, ih (i + 1)]
    have heq : i + 1 + b + 1 = i + (b + 1) + 1 := by omega
    rw [heq]

theorem runUrlAux_const_transport {att : Nat → AttemptResult}
    (ht : ∀ i, att i = .transportError) :
    ∀ budget i, runUrlAux att i budget = (i + budget + 1, .failed) := by
  intro budget
  induction budget with
  | zero =>
    intro i
    rw [runUrlAux]
    simp [ht i]
  | succ b ih =>
    intro i
    rw [runUrlAux]
    simp only [ht i]
    rw [ih (i + 1)]
    have heq : i + 1 + b + 1 = i + (b + 1) + 1 := by omega
    rw [heq]

theorem runUrlAux_nonretry {c : Nat} {att : Nat → AttemptResult} {i : Nat}
    (hs0 : att i = .response c) (h1 : ¬ c < 400) (hnc : c ∉ STATUS_FORCELIST) :
    ∀ budget, runUrlAux att i budget = (i + 1, .failed) := by
  intro budget
  cases budget with
  | zero =>
    rw [runUrlAux]
    simp [hs0, h1, hnc]
  | succ b =>
    rw [runUrlAux]
    simp [hs0, h1, hnc]

theorem runUrlAux_success {c : Nat} {att : Nat → AttemptResult} {i : Nat}
    (hs0 : att i = .response c) (hlt : c < 400) :
    ∀ budget, runUrlAux att i budget = (i + 1, .success c) := by
  intro budget
  cases budget with
  | zero =>
    rw [runUrlAux]
    simp [hs0, hlt]
  | succ b =>
    rw [runUrlAux]
    simp [hs0, hlt]

/-- **C6 (amended).** Within one endpoint, transport-level failures and
responses whose status is in `STATUS_FORCELIST` are retried up to the
attempt cap (`RETRY_TOTAL + 1` requests in total); any other non-2xx/3xx
status (e.g. 404) fails the endpoint immediately after a single request —
it is not retried up to the cap — and the fetcher then falls through to the
next candidate rather than aborting the whole fetch. -/
theorem retry_policy (c : Nat) (att attT : Nat → AttemptResult)
    (hs : ∀ i, att i = .response c) (ht : ∀ i, attT i = .transportError) :
    (c ∈ STATUS_FORCELIST → runUrl att = (RETRY_TOTAL + 1, .failed)) ∧
    (400 ≤ c → c ∉ STATUS_FORCELIST → runUrl att = (1, .failed)) ∧
    (c < 400 → runUrl att = (1, .success c)) ∧
    runUrl attT = (RETRY_TOTAL + 1, .failed) ∧
    (∀ rest, runUrl att = (1, .failed) →
      fetchFeed (att :: rest) = fetchFeed rest) := by
  refine ⟨?_, ?_, ?_, ?_, ?_⟩
  · intro hc
    rw [runUrl, runUrlAux_const_forcelist hs hc, Nat.zero_add]
  · intro hge hnc
    have h1 : ¬ c < 400 := by omega
    rw [runUrl, runUrlAux_nonretry (hs 0) h1 hnc]
  · intro hlt
    rw [runUrl, runUrlAux_success (hs 0) hlt]
  · rw [runUrl, runUrlAux_const_transport ht, Nat.zero_add]
  · intro rest hfail
    rw [fetchFeed, hfail]

/-- Witness for `retry_policy` at concrete attempt streams: a persistent
503 and a persistent transport error use all `RETRY_TOTAL + 1` requests; a
single 401 fails the endpoint at once; a 200 succeeds at once. -/
theorem retry_policy_witness :
    runUrl (fun _ => AttemptResult.response 503) = (RETRY_TOTAL + 1, .failed) ∧
    runUrl (fun _ => AttemptResult.response 401) = (1, .failed) ∧
    runUrl (fun _ => AttemptResult.response 200) = (1, .success 200) ∧
    runUrl (fun _ => AttemptResult.transportError) = (RETRY_TOTAL + 1, .failed) := by
  have h1 := retry_policy 503 (fun _ => .response 503) (fun _ => .transportError)
    (fun _ => rfl) (fun _ => rfl)
  have h2 := retry_policy 401 (fun _ => .response 401) (fun _ => .transportError)
    (fun _ => rfl) (fun _ => rfl)
  have h3 := retry_policy 200 (fun _ => .response 200) (fun _ => .transportError)
    (fun _ => rfl) (fun _ => rfl)
  exact ⟨h1.1 (by decide), h2.2.1 (by decide) (by decide), h3.2.2.1 (by decide),
    h1.2.2.2.1⟩

/-- **C6 counterexample.** A 404 — a non-2xx status outside the retryable
set — is not treated as a retryable failure within the endpoint: exactly one
request is issued (not the per-endpoint cap of `RETRY_TOTAL + 1` requests)
before the fetcher moves on to the next candidate. -/
theorem non_retryable_status_not_retried :
    runUrl (fun _ => AttemptResult.response 404) = (1, .failed) ∧
    (1 : Nat) ≠ RETRY_TOTAL + 1 ∧
    fetchFeed [fun _ => AttemptResult.response 404,
               fun _ => AttemptResult.response 200] = some 200 := by
  refine ⟨rfl, by decide, rfl⟩

/-! ## C10: the fingerprint does not round-trip through persist-load -/

/-- **C10.** For an entry whose identity hint is present, non-empty and
different from its link, merge keys its Record by the hash of the hint,
while the loader re-keys the persisted Record — which carries no hint
field — by the hash of the link; the two materials differ, so unless
SHA-256 collides on them the keys differ, and cross-run dedupe does not
apply: a next-run merge against the loaded store inserts the same item a
second time under the other key. -/
theorem fingerprint_roundtrip_mismatch (e : FeedEntry) (s l : String)
    (t now cutoff : Nat)
    (hid : dget e.fields "id" = some (.jstr s)) (hs : s ≠ "")
    (hlink : dget e.fields "link" = some (.jstr l)) (hl : l ≠ "") :
    fingerprint e.fields = some (sha256hex s) ∧
    fingerprintV (mkRecord e t) = some (sha256hex l) ∧
    loadStore [.decoded (mkRecord e t)] = .ok [(sha256hex l, mkRecord e t)] ∧
    (sha256hex s ≠ sha256hex l → cutoff ≤ entryPublished now e →
      mergeEntry now cutoff [(sha256hex l, mkRecord e t)] e =
        .ok [(sha256hex l, mkRecord e t),
             (sha256hex s, mkRecord e (entryPublished now e))]) := by
  have h1 : fingerprint e.fields = some (sha256hex s) :=
    fingerprint_of_truthy_id hid hs
  have h2 : fingerprint [("title", pyGet e.fields "title"),
      ("link", pyGet e.fields "link"), ("published", .jstr (isoformat t)),
      ("summary", pyGet e.fields "summary")] = some (sha256hex l) := by
    have hidF : (pyGet [("title", pyGet e.fields "title"),
        ("link", pyGet e.fields "link"), ("published", Jval.jstr (isoformat t)),
        ("summary", pyGet e.fields "summary")] "id").truthy = false := by
      rw [pyGet, dget_cons_ne (by decide), dget_cons_ne (by decide),
          dget_cons_ne (by decide), dget_cons_ne (by decide)]
      rfl
    have hdl : dget [("title", pyGet e.fields "title"),
        ("link", pyGet e.fields "link"), ("published", Jval.jstr (isoformat t)),
        ("summary", pyGet e.fields "summary")] "link" = some (.jstr l) := by
      rw [dget_cons_ne (by decide), dget_cons_self]
      simp [pyGet, hlink]
    exact fingerprint_of_truthy_link hidF hdl hl
  refine ⟨h1, ?_, ?_, ?_⟩
  · simp only [fingerprintV, mkRecord]
    exact h2
  · simp only [loadStore, loadLines, mkRecord, h2, dictSet, dget]
    rfl
  · intro hneq hle
    have hdnone : dget [(sha256hex l, mkRecord e t)] (sha256hex s) = none := by
      rw [dget_cons_ne (fun hc => hneq hc.symm)]
      rfl
    simp only [mergeEntry, if_pos hle, h1, hdnone, Option.isSome_none,
      Bool.false_eq_true, if_false]
    rfl

/-- Witness for `fingerprint_roundtrip_mismatch` at a concrete entry whose
hint is `"guid-1"` and link is `"x"`: the two SHA-256 digests are computed
and differ, so the loaded store and the second-run merge hold the item
twice, under two keys. -/
theorem fingerprint_roundtrip_mismatch_witness :
    sha256hex "guid-1" ≠ sha256hex "x" ∧
    fingerprint cexHintEntry.fields = some (sha256hex "guid-1") ∧
    loadStore [.decoded (mkRecord cexHintEntry 10)] =
      .ok [(sha256hex "x", mkRecord cexHintEntry 10)] ∧
    mergeEntry 100 50 [(sha256hex "x", mkRecord cexHintEntry 10)] cexHintEntry =
      .ok [(sha256hex "x", mkRecord cexHintEntry 10),
           (sha256hex "guid-1", mkRecord cexHintEntry 60)] := by
  have hneq : sha256hex "guid-1" ≠ sha256hex "x" := by decide
  have h := fingerprint_roundtrip_mismatch cexHintEntry "guid-1" "x" 10 100 50
    rfl (by decide) rfl (by decide)
  exact ⟨hneq, h.1, h.2.2.1, h.2.2.2 hneq (by decide)⟩

/-! ## Helper lemmas: code-point string comparison -/

theorem charsLt_nil_right : ∀ a, charsLt a [] = false := by
  intro a
  cases a <;> rfl

theorem charsLt_irrefl : ∀ a, charsLt a a = false := by
  intro a
  induction a with
  | nil => rfl
  | cons c cs ih =>
    rw [charsLt]
    simp [ih]

theorem charsLt_asymm : ∀ a b, charsLt a b = true → charsLt b a = false := by
  intro a
  induction a with
  | nil =>
    intro b hb
    cases b
    · cases hb
    · exact charsLt_nil_right _
  | cons c cs ih =>
    intro b hb
    cases b with
    | nil => rw [charsLt_nil_right] at hb; cases hb
    | cons d ds =>
      rw [charsLt] at hb ⊢
      by_cases h1 : c.toNat < d.toNat
      · rw [if_neg (by omega), if_pos h1]
      · rw [if_neg h1] at hb
        by_cases h2 : d.toNat < c.toNat
        · rw [if_pos h2] at hb
          cases hb
        · rw [if_neg h2] at hb
          rw [if_neg (by omega), if_neg (by omega)]
          exact ih ds hb

theorem charsLt_false_trans :
    ∀ a b c, charsLt a b = false → charsLt b c = false → charsLt a c = false := by
  intro a
  induction a with
  | nil =>
    intro b c h1 h2
    cases b with
    | nil =>
      cases c with
      | nil => rfl
      | cons x xs => cases h2
    | cons y ys =>
      cases h1
  | cons a0 as ih =>
    intro b c h1 h2
    cases c with
    | nil => exact charsLt_nil_right _
    | cons c0 cs =>
      cases b with
      | nil => cases h2
      | cons b0 bs =>
        rw [charsLt] at h1 h2 ⊢
        by_cases hab : a0.toNat < b0.toNat
        · rw [if_pos hab] at h1
          cases h1
        · rw [if_neg hab] at h1
          by_cases hbc : b0.toNat < c0.toNat
          · rw [if_pos hbc] at h2
            cases h2
          · rw [if_neg hbc] at h2
            rw [if_neg (by omega)]
            by_cases hca : c0.toNat < a0.toNat
            · rw [if_pos hca]
            · rw [if_neg hca]
              have hba : ¬ b0.toNat < a0.toNat := by omega
              have hcb : ¬ c0.toNat < b0.toNat := by omega
              rw [if_neg hba] at h1
              rw [if_neg hcb] at h2
              exact ih bs cs h1 h2

theorem strLt_irrefl (a : String) : strLt a a = false := charsLt_irrefl _

theorem strLt_asymm {a b : String} (h : strLt a b = true) : strLt b a = false :=
  charsLt_asymm _ _ h

theorem strLt_false_trans {a b c : String}
    (h1 : strLt a b = false) (h2 : strLt b c = false) : strLt a c = false :=
  charsLt_false_trans _ _ _ h1 h2

/-! ## Helper lemmas: the writer's stable descending sort -/

theorem insDesc_perm (key : Jval → String) (x : Jval) :
    ∀ l, (insDesc key x l).Perm (x :: l) := by
  intro l
  induction l with
  | nil => exact List.Perm.refl _
  | cons y ys ih =>
    rw [insDesc]
    by_cases h : strLt (key x) (key y) = true
    · rw [if_pos h]
      exact (ih.cons y).trans (List.Perm.swap x y ys)
    · rw [if_neg h]

theorem mem_insDesc {key : Jval → String} {x z : Jval} {l : List Jval} :
    z ∈ insDesc key x l ↔ z = x ∨ z ∈ l := by
  rw [(insDesc_perm key x l).mem_iff, List.mem_cons]

theorem pySortedDesc_perm (key : Jval → String) :
    ∀ l, (pySortedDesc key l).Perm l := by
  intro l
  induction l with
  | nil => exact List.Perm.refl _
  | cons x xs ih =>
    rw [pySortedDesc]
    exact (insDesc_perm key x (pySortedDesc key xs)).trans (ih.cons x)

theorem insDesc_sorted (key : Jval → String) (x : Jval) :
    ∀ l, l.Pairwise (fun a b => strLt (key a) (key b) = false) →
      (insDesc key x l).Pairwise (fun a b => strLt (key a) (key b) = false) := by
  intro l
  induction l with
  | nil =>
    intro _
    simp [insDesc]
  | cons y ys ih =>
    intro hp
    rw [List.pairwise_cons] at hp
    obtain ⟨hy, hys⟩ := hp
    rw [insDesc]
    by_cases h : strLt (key x) (key y) = true
    · rw [if_pos h, List.pairwise_cons]
      refine ⟨fun z hz => ?_, ih hys⟩
      rcases mem_insDesc.mp hz with rfl | hzys
      · exact strLt_asymm h
      · exact hy z hzys
    · rw [if_neg h, List.pairwise_cons]
      have hxy : strLt (key x) (key y) = false := by
        cases hxy2 : strLt (key x) (key y)
        · rfl
        · exact absurd hxy2 h
      refine ⟨fun z hz => ?_, List.pairwise_cons.mpr ⟨hy, hys⟩⟩
      rcases List.mem_cons.mp hz with rfl | hzys
      · exact hxy
      · exact strLt_false_trans hxy (hy z hzys)

theorem pySortedDesc_sorted (key : Jval → String) :
    ∀ l, (pySortedDesc key l).Pairwise (fun a b => strLt (key a) (key b) = false) := by
  intro l
  induction l with
  | nil => simp [pySortedDesc]
  | cons x xs ih =>
    rw [pySortedDesc]
    exact insDesc_sorted key x _ ih

theorem filter_insDesc (key : Jval → String) (s : String) (x : Jval) :
    ∀ l, (insDesc key x l).filter (fun r => key r == s) =
      (x :: l).filter (fun r => key r == s) := by
  intro l
  induction l with
  | nil => rfl
  | cons y ys ih =>
    rw [insDesc]
    by_cases h : strLt (key x) (key y) = true
    · rw [if_pos h]
      by_cases hx : (key x == s) = true
      · have hxeq : key x = s := by simpa using hx
        have hy : (key y == s) = false := by
          simp only [beq_eq_false_iff_ne, ne_eq]
          intro hys
          rw [hxeq, hys] at h
          rw [strLt_irrefl] at h
          cases h
        simp [List.filter_cons, ih, hx, hy]
      · have hx2 : (key x == s) = false := by simpa using hx
        simp [List.filter_cons, ih, hx2]
    · rw [if_neg h]

theorem filter_pySortedDesc (key : Jval → String) (s : String) :
    ∀ l, (pySortedDesc key l).filter (fun r => key r == s) =
      l.filter (fun r => key r == s) := by
  intro l
  induction l with
  | nil => rfl
  | cons y ys ih =>
    rw [pySortedDesc, filter_insDesc, List.filter_cons, List.filter_cons, ih]

/-! ## C7: the writer's output order -/

/-- **C7 (amended).** The writer emits one serialized Record per line,
ordered by the `published` field descending in code-point order (for the
program's uniform fixed-width UTC renderings this coincides with timestamp
order); records with equal `published` keep the mapping's insertion order —
Python's `sorted` is stable and applies no fingerprint tie-break — so the
order is deterministic for a given insertion-ordered mapping. -/
theorem writer_sorted_stable (m : Store) :
    (writeOrder m).Perm (m.map Prod.snd) ∧
    (writeOrder m).Pairwise (fun a b => strLt (pubKey a) (pubKey b) = false) ∧
    (∀ s, (writeOrder m).filter (fun r => pubKey r == s) =
      (m.map Prod.snd).filter (fun r => pubKey r == s)) ∧
    writeLines m = (writeOrder m).map (fun r => dumpsPlain r ++ "\n") := by
  exact ⟨pySortedDesc_perm pubKey _, pySortedDesc_sorted pubKey _,
    fun s => filter_pySortedDesc pubKey s _, rfl⟩

/-- **C7 counterexample.** Ties are not broken by fingerprint ascending:
`cexWriterStore` holds two records with equal `published`, inserted with the
larger-fingerprint record first; the writer keeps that insertion order and
emits the larger-fingerprint record first. -/
theorem writer_tie_not_fingerprint_ascending :
    (fingerprintV cexRecA).getD "" = cexFpA ∧
    (fingerprintV cexRecB).getD "" = cexFpB ∧
    pubKey cexRecA = pubKey cexRecB ∧
    strLt cexFpB cexFpA = true ∧
    writeOrder cexWriterStore = [cexRecA, cexRecB] ∧
    recLink cexRecA = some "a" ∧ recLink cexRecB = some "b" := by
  exact ⟨rfl, rfl, rfl, by decide, rfl, rfl, rfl⟩

/-! ## Helper lemmas: well-formed records and the loader -/

theorem isWfRecord_jobj {v : Jval} (h : isWfRecord v = true) :
    ∃ d, v = Jval.jobj d := by
  cases v with
  | jobj d => exact ⟨d, rfl⟩
  | jnull => simp [isWfRecord] at h
  | jbool b => simp [isWfRecord] at h
  | jnum n => simp [isWfRecord] at h
  | jstr s => simp [isWfRecord] at h
  | jarr l => simp [isWfRecord] at h

theorem isWfRecord_fields {d : List (String × Jval)}
    (h : isWfRecord (.jobj d) = true) {k : String} {v : Jval}
    (hkv : (k, v) ∈ d) :
    (k = "title" ∨ k = "link" ∨ k = "summary" ∨ k = "published") ∧
    (k = "published" ∨ v = .jnull ∨ ∃ s, v = .jstr s) := by
  rw [isWfRecord, Bool.and_eq_true, Bool.and_eq_true] at h
  obtain ⟨⟨_, hall⟩, _⟩ := h
  rw [List.all_eq_true] at hall
  have := hall (k, v) hkv
  rw [Bool.and_eq_true] at this
  obtain ⟨hk, hv⟩ := this
  constructor
  · simp only [Bool.or_eq_true, beq_iff_eq] at hk
    tauto
  · simp only [Bool.or_eq_true, beq_iff_eq] at hv
    rcases hv with hk2 | hopt
    · exact Or.inl hk2
    · cases v with
      | jnull => exact Or.inr (Or.inl rfl)
      | jstr s => exact Or.inr (Or.inr ⟨s, rfl⟩)
      | jbool b => simp [isOptStr] at hopt
      | jnum n => simp [isOptStr] at hopt
      | jarr l => simp [isOptStr] at hopt
      | jobj l => simp [isOptStr] at hopt

theorem isWfRecord_id_none {d : List (String × Jval)}
    (h : isWfRecord (.jobj d) = true) : dget d "id" = none := by
  cases hd : dget d "id" with
  | none => rfl
  | some v =>
    have hmem := dget_mem hd
    have := (isWfRecord_fields h hmem).1
    rcases this with h1 | h1 | h1 | h1 <;> simp at h1

theorem isWfRecord_fingerprint {d : List (String × Jval)}
    (h : isWfRecord (.jobj d) = true) :
    ∃ fp, fingerprint d = some fp := by
  have hidF : (pyGet d "id").truthy = false := by
    simp [pyGet, isWfRecord_id_none h, Jval.truthy]
  cases hdl : dget d "link" with
  | none =>
    have hlinkF : (pyGet d "link").truthy = false := by
      simp [pyGet, hdl, Jval.truthy]
    exact ⟨_, fingerprint_fallback hidF hlinkF⟩
  | some v =>
    have hv := (isWfRecord_fields h (dget_mem hdl)).2
    rcases hv with hk | rfl | ⟨s, rfl⟩
    · simp at hk
    · have hlinkF : (pyGet d "link").truthy = false := by
        simp [pyGet, hdl, Jval.truthy]
      exact ⟨_, fingerprint_fallback hidF hlinkF⟩
    · by_cases hs : s = ""
      · subst hs
        have hlinkF : (pyGet d "link").truthy = false := by
          simp [pyGet, hdl, Jval.truthy]
        exact ⟨_, fingerprint_fallback hidF hlinkF⟩
      · exact ⟨_, fingerprint_of_truthy_link hidF hdl hs⟩

theorem mem_decodedRecs {lines : List LoadLine} {v : Jval}
    (h : v ∈ decodedRecs lines) : LoadLine.decoded v ∈ lines := by
  rw [decodedRecs, List.mem_filterMap] at h
  obtain ⟨l, hl, hlv⟩ := h
  cases l with
  | undecodable => cases hlv
  | decoded w =>
    cases hlv
    exact hl

theorem loadLines_wf :
    ∀ (lines : List LoadLine) (m : Store),
    (∀ l ∈ lines, l = .undecodable ∨
      ∃ v, l = .decoded v ∧ isWfRecord v = true) →
    (∀ v ∈ decodedRecs lines, ∀ fp, fingerprintV v = some fp → dget m fp = none) →
    (decodedRecs lines).Pairwise (fun a b => fingerprintV a ≠ fingerprintV b) →
    loadLines m lines =
      .ok (m ++ (decodedRecs lines).map (fun v => ((fingerprintV v).getD "", v))) := by
  intro lines
  induction lines with
  | nil =>
    intro m _ _ _
    simp [loadLines, decodedRecs]
  | cons l rest ih =>
    intro m hline hdisj hpw
    rcases hline l (List.mem_cons_self _ _) with rfl | ⟨v, rfl, hwf⟩
    · have hrec : decodedRecs (LoadLine.undecodable :: rest) = decodedRecs rest := by
        simp [decodedRecs]
      rw [loadLines, ih m (fun x hx => hline x (List.mem_cons_of_mem _ hx))
        (fun v hv fp hfp => hdisj v (by rw [hrec]; exact hv) fp hfp)
        (by rw [hrec] at hpw; exact hpw), hrec]
    · obtain ⟨d, rfl⟩ := isWfRecord_jobj hwf
      obtain ⟨fp, hfp⟩ := isWfRecord_fingerprint hwf
      have hrec : decodedRecs (LoadLine.decoded (Jval.jobj d) :: rest) =
          Jval.jobj d :: decodedRecs rest := by
        simp [decodedRecs]
      have hfpv : fingerprintV (Jval.jobj d) = some fp := hfp
      have hnone : dget m fp = none :=
        hdisj (Jval.jobj d) (by rw [hrec]; exact List.mem_cons_self _ _) fp hfpv
      have hset : dictSet m fp (Jval.jobj d) = m ++ [(fp, Jval.jobj d)] := by
        rw [dictSet, hnone]
        rfl
      rw [hrec] at hpw
      rw [List.pairwise_cons] at hpw
      obtain ⟨hhead, htail⟩ := hpw
      simp only [loadLines, hfp]
      rw [hset]
      rw [ih (m ++ [(fp, Jval.jobj d)])
        (fun x hx => hline x (List.mem_cons_of_mem _ hx)) ?_ htail]
      · rw [hrec]
        simp [hfpv, List.append_assoc]
      · intro v2 hv2 fp2 hfp2
        have hne : fp ≠ fp2 := by
          intro hc
          subst hc
          exact hhead v2 hv2 (by rw [hfpv, hfp2])
        have hm2 : dget m fp2 = none :=
          hdisj v2 (by rw [hrec]; exact List.mem_cons_of_mem _ hv2) fp2 hfp2
        rw [dget_append_none hm2, dget_cons_ne hne]
        rfl

/-! ## C5: the loader and malformed lines -/

/-- **C5 (amended).** Lines that fail JSON decoding are skipped and are
never fatal: for a store file whose lines each either fail to decode or
decode as well-formed Records (with pairwise distinct fingerprints), the
loader returns exactly those Records, in file order, each keyed by its
recomputed fingerprint. A line that is valid JSON but not a well-formed
Record is however not tolerated: a non-dict value makes the loader itself
raise (only `JSONDecodeError` is caught). -/
theorem loader_skips_undecodable (lines : List LoadLine)
    (hline : ∀ l ∈ lines, l = .undecodable ∨
      ∃ v, l = .decoded v ∧ isWfRecord v = true)
    (hpw : (decodedRecs lines).Pairwise (fun a b => fingerprintV a ≠ fingerprintV b)) :
    loadStore lines =
      .ok ((decodedRecs lines).map (fun v => ((fingerprintV v).getD "", v))) ∧
    ((decodedRecs lines).map (fun v => ((fingerprintV v).getD "", v))).map Prod.snd =
      decodedRecs lines ∧
    ∀ p ∈ (decodedRecs lines).map (fun v => ((fingerprintV v).getD "", v)),
      fingerprintV p.2 = some p.1 := by
  refine ⟨?_, ?_, ?_⟩
  case refine_2 =>
    rw [List.map_map]
    have hcomp : (Prod.snd ∘ fun v : Jval => ((fingerprintV v).getD "", v)) = id := rfl
    rw [hcomp, List.map_id]
  · rw [loadStore, loadLines_wf lines [] hline (fun v _ fp _ => rfl) hpw]
    rfl
  · intro p hp
    rw [List.mem_map] at hp
    obtain ⟨v, hv, rfl⟩ := hp
    obtain ⟨w, hw, hwf⟩ : ∃ w, LoadLine.decoded v = LoadLine.decoded w ∧ isWfRecord w = true := by
      rcases hline _ (mem_decodedRecs hv) with h | ⟨w, hw, hwf⟩
      · cases h
      · exact ⟨w, hw, hwf⟩
    cases hw
    obtain ⟨d, rfl⟩ := isWfRecord_jobj hwf
    obtain ⟨fp, hfp⟩ := isWfRecord_fingerprint hwf
    have hfpv : fingerprintV (Jval.jobj d) = some fp := hfp
    simp [hfpv]

/-- Witness for `loader_skips_undecodable`: one undecodable line among two
well-formed Records loads exactly the two Records, keyed by their
recomputed fingerprints. -/
theorem loader_skips_undecodable_witness :
    loadStore [LoadLine.undecodable, .decoded cexRecA, .decoded cexRecB] =
      .ok ((decodedRecs [LoadLine.undecodable, .decoded cexRecA, .decoded cexRecB]).map
        (fun v => ((fingerprintV v).getD "", v))) := by
  have h := loader_skips_undecodable
    [LoadLine.undecodable, .decoded cexRecA, .decoded cexRecB] ?_ ?_
  · exact h.1
  · intro l hl
    fin_cases hl
    · exact Or.inl rfl
    · exact Or.inr ⟨_, rfl, by decide⟩
    · exact Or.inr ⟨_, rfl, by decide⟩
  · decide

/-- **C5 counterexample.** A line that is valid JSON but not a well-formed
Record — the JSON number `5` — is not skipped: `rec.get` inside
`fingerprint` raises `AttributeError` and the loader fails instead of
returning the mapping of well-formed lines. -/
theorem loader_valid_json_line_fatal :
    loadStore [.decoded (.jnum 5)] = .error .attributeError ∧
    loadStore [.undecodable] = .ok [] := ⟨rfl, rfl⟩

/-! ## Helper lemmas: the full merge characterization -/

theorem keepB_iff {cutoff : Nat} {p : String × Jval} :
    keepB cutoff p = true ↔ ∃ t, recPublished p.2 = Except.ok t ∧ cutoff ≤ t := by
  rw [keepB]
  rcases h : recPublished p.2 with e | t
  · simp
  · simp

theorem merge_char {now cutoff : Nat} {existing : Store} {fetched : List FeedEntry}
    (hwf : ∀ p ∈ existing, ∃ t, recPublished p.2 = Except.ok t)
    (hfp : ∀ e ∈ fetched, (fingerprint e.fields).isSome = true)
    (ht : ∀ e ∈ fetched, entryPublished now e < TMAX) :
    ∃ ext, mergeEntries now cutoff existing fetched = .ok (existing ++ ext) ∧
      (∀ p ∈ ext, dget existing p.1 = none ∧
        ∃ e ∈ fetched, fingerprint e.fields = some p.1 ∧
          p.2 = mkRecord e (entryPublished now e) ∧
          cutoff ≤ entryPublished now e) ∧
      merge now cutoff existing fetched =
        .ok ((existing ++ ext).filter (keepB cutoff)) := by
  obtain ⟨m', hm'⟩ := mergeEntries_ok fetched existing hfp
  obtain ⟨ext, heq, hprops⟩ := mergeEntries_structure fetched existing m' hm'
  subst heq
  refine ⟨ext, hm', hprops, ?_⟩
  simp only [merge, hm']
  apply prune_eq_filter
  intro p hp
  rcases List.mem_append.mp hp with h1 | h2
  · exact hwf p h1
  · obtain ⟨_, e, he, _, hrec, hle⟩ := hprops p h2
    exact ⟨entryPublished now e, by rw [hrec]; exact recPublished_mkRecord (ht e he)⟩

theorem mergeEntries_skip_all {now cutoff : Nat} :
    ∀ (es : List FeedEntry) (m : Store),
    (∀ e ∈ es, (fingerprint e.fields).isSome = true) →
    (∀ e ∈ es, ∀ fp, fingerprint e.fields = some fp →
      cutoff ≤ entryPublished now e → (dget m fp).isSome = true) →
    mergeEntries now cutoff m es = .ok m := by
  intro es
  induction es with
  | nil => intro m _ _; rfl
  | cons e rest ih =>
    intro m hfp hpres
    have hm : mergeEntry now cutoff m e = .ok m := by
      by_cases hle : cutoff ≤ entryPublished now e
      · rcases hfpe : fingerprint e.fields with _ | fp
        · have hisme := hfp e (List.mem_cons_self _ _)
          rw [hfpe] at hisme
          cases hisme
        · have hpr := hpres e (List.mem_cons_self _ _) fp hfpe hle
          simp [mergeEntry, if_pos hle, hfpe, hpr]
      · simp [mergeEntry, if_neg hle]
    simp only [mergeEntries, hm]
    exact ih m (fun x hx => hfp x (List.mem_cons_of_mem _ hx))
      (fun x hx => hpres x (List.mem_cons_of_mem _ hx))

/-! ## C1: the merge-prune result is exactly the in-window record set -/

/-- **C1.** For every well-formed existing store, fetched entries and
window-start: the merge succeeds and returns a mapping in which (i) every
Record has `published ≥ window-start` — no Record, whether it came from
`existing` or from `fetched`, survives with `published < window-start`;
(ii) fingerprint keys are unique, one Record per fingerprint; (iii) every
existing Record within the window survives unchanged under its key;
(iv) everything in the output is either such a seeded Record or the
normalization of an admitted fetched entry (inserted first-seen-wins under
its fingerprint, with `published ≥ window-start`); and (v) completeness for
the fetched side: every fetched entry admitted by the window has its
fingerprint present in the output — the only exception being the
shadow-prune configuration, where an out-of-window existing Record held
that fingerprint during the loop and was then pruned, leaving the key
empty. Together these determine the output exactly. -/
theorem merge_window_exact (now cutoff : Nat) (existing : Store)
    (fetched : List FeedEntry)
    (hnd : (existing.map Prod.fst).Nodup)
    (hwf : ∀ p ∈ existing, ∃ t, recPublished p.2 = Except.ok t)
    (hfp : ∀ e ∈ fetched, (fingerprint e.fields).isSome = true)
    (ht : ∀ e ∈ fetched, entryPublished now e < TMAX) :
    ∃ out, merge now cutoff existing fetched = .ok out ∧
      (∀ p ∈ out, ∃ t, recPublished p.2 = Except.ok t ∧ cutoff ≤ t) ∧
      (out.map Prod.fst).Nodup ∧
      (∀ p ∈ existing, (∃ t, recPublished p.2 = Except.ok t ∧ cutoff ≤ t) →
        p ∈ out) ∧
      (∀ p ∈ out, p ∈ existing ∨
        ∃ e ∈ fetched, fingerprint e.fields = some p.1 ∧
          p.2 = mkRecord e (entryPublished now e) ∧
          cutoff ≤ entryPublished now e) ∧
      (∀ e ∈ fetched, ∀ fp2, fingerprint e.fields = some fp2 →
        cutoff ≤ entryPublished now e →
        (dget out fp2).isSome = true ∨
        ∃ r, dget existing fp2 = some r ∧
          ∃ t, recPublished r = Except.ok t ∧ t < cutoff ∧
            dget out fp2 = none) := by
  obtain ⟨ext, hme, hprops, hmerge⟩ := merge_char hwf hfp ht
  have hnd2 := mergeEntries_nodup fetched existing _ hme hnd
  refine ⟨_, hmerge, ?_, ?_, ?_, ?_, ?_⟩
  · intro p hp
    exact keepB_iff.mp (List.mem_filter.mp hp).2
  · have hsub : List.Sublist
        (((existing ++ ext).filter (keepB cutoff)).map Prod.fst)
        ((existing ++ ext).map Prod.fst) :=
      List.Sublist.map _ (List.filter_sublist _)
    exact List.Nodup.sublist hsub hnd2
  · intro p hp hkeep
    exact List.mem_filter.mpr ⟨List.mem_append_left _ hp, keepB_iff.mpr hkeep⟩
  · intro p hp
    rcases List.mem_append.mp (List.mem_filter.mp hp).1 with h1 | h2
    · exact Or.inl h1
    · obtain ⟨_, e, he, hfpe, hrec, hle⟩ := hprops p h2
      exact Or.inr ⟨e, he, hfpe, hrec, hle⟩
  · intro e he fp2 hfpe hle
    have hfull : (dget (existing ++ ext) fp2).isSome = true :=
      mergeEntries_presence fetched existing _ hme e he fp2 hfpe hle
    rcases hv : dget (existing ++ ext) fp2 with _ | v
    · rw [hv] at hfull
      cases hfull
    · have hflt := dget_filter (keepB cutoff) hnd2 hv
      rcases hex : dget existing fp2 with _ | r
      · have hext : dget ext fp2 = some v := by
          rw [dget_append_none hex] at hv
          exact hv
        obtain ⟨_, e2, he2, _, hrec2, hle2⟩ := hprops (fp2, v) (dget_mem hext)
        have hkeep : keepB cutoff (fp2, v) = true := by
          rw [keepB_iff]
          refine ⟨entryPublished now e2, ?_, hle2⟩
          rw [hrec2]
          exact recPublished_mkRecord (ht e2 he2)
        left
        rw [hflt, if_pos hkeep]
        rfl
      · have hvr : dget (existing ++ ext) fp2 = some r := dget_append_some hex
        rw [hv] at hvr
        cases hvr
        by_cases hkeep : keepB cutoff (fp2, v) = true
        · left
          rw [hflt, if_pos hkeep]
          rfl
        · right
          obtain ⟨t, htr⟩ := hwf (fp2, v) (dget_mem hex)
          have hlt : t < cutoff := by
            by_contra hc
            exact hkeep (keepB_iff.mpr ⟨t, htr, by omega⟩)
          refine ⟨v, rfl, t, htr, hlt, ?_⟩
          rw [hflt, if_neg hkeep]

/-- Witness for `merge_window_exact`: first at an in-window existing record
with one fetched entry; then at the spec's scenario — an empty store with a
fresh and a stale fetched entry yields a mapping holding the fresh record's
fingerprint and nothing out of window. -/
theorem merge_window_exact_witness :
    (∃ out, merge 100 50 [(cexFpA, cexRecA)] [cexEntry] = .ok out ∧
      (∀ p ∈ out, ∃ t, recPublished p.2 = Except.ok t ∧ 50 ≤ t) ∧
      (out.map Prod.fst).Nodup ∧
      (∀ p ∈ [(cexFpA, cexRecA)],
        (∃ t, recPublished p.2 = Except.ok t ∧ 50 ≤ t) → p ∈ out) ∧
      (∀ p ∈ out, p ∈ [(cexFpA, cexRecA)] ∨
        ∃ e ∈ [cexEntry], fingerprint e.fields = some p.1 ∧
          p.2 = mkRecord e (entryPublished 100 e) ∧
          50 ≤ entryPublished 100 e) ∧
      (∀ e ∈ [cexEntry], ∀ fp2, fingerprint e.fields = some fp2 →
        50 ≤ entryPublished 100 e →
        (dget out fp2).isSome = true ∨
        ∃ r, dget [(cexFpA, cexRecA)] fp2 = some r ∧
          ∃ t, recPublished r = Except.ok t ∧ t < 50 ∧
            dget out fp2 = none)) ∧
    (∃ out, merge 100 50 [] [cexEntry, cexStaleEntry] = .ok out ∧
      (dget out cexFp).isSome = true ∧
      ∀ p ∈ out, ∃ t, recPublished p.2 = Except.ok t ∧ 50 ≤ t) := by
  constructor
  · apply merge_window_exact 100 50 [(cexFpA, cexRecA)] [cexEntry]
    · simp
    · intro p hp
      rw [List.mem_singleton] at hp
      subst hp
      exact ⟨77, rfl⟩
    · intro e he
      rw [List.mem_singleton] at he
      subst he
      rfl
    · intro e he
      rw [List.mem_singleton] at he
      subst he
      decide
  · have hfp2 : ∀ e ∈ [cexEntry, cexStaleEntry],
        (fingerprint e.fields).isSome = true := by
      intro e he
      fin_cases he
      · rfl
      · rfl
    have ht2 : ∀ e ∈ [cexEntry, cexStaleEntry], entryPublished 100 e < TMAX := by
      intro e he
      fin_cases he
      · decide
      · decide
    obtain ⟨out, hok, hsound, _, _, _, hcomp⟩ :=
      merge_window_exact 100 50 [] [cexEntry, cexStaleEntry]
        (by simp) (by simp) hfp2 ht2
    refine ⟨out, hok, ?_, hsound⟩
    rcases hcomp cexEntry (List.mem_cons_self _ _) cexFp rfl (by decide)
      with h | ⟨r, hr, _⟩
    · exact h
    · simp [dget] at hr

/-! ## C2: first-seen-wins, up to pruning -/

/-- **C2 counterexample.** With a stale existing Record and a fresh fetched
entry of the same fingerprint, the merged mapping does not retain the
existing Record at that fingerprint: the stored Record is pruned, and
nothing remains under the key — so "the merged mapping retains the existing
Record unchanged at fp" fails as stated. -/
theorem firstSeen_retention_cex :
    dget cexStore cexFp = some cexStale ∧
    fingerprint cexEntry.fields = some cexFp ∧
    50 ≤ entryPublished 100 cexEntry ∧
    merge 100 50 cexStore [cexEntry] = .ok [] ∧
    dget ([] : Store) cexFp = none := by
  exact ⟨dget_cons_self, rfl, by decide, rfl, rfl⟩

/-- **C2 (amended).** First-seen-wins holds up to pruning: when `existing`
maps `fp` to `r` and a fetched entry carries the same fingerprint, the
merge never overwrites `r` — the output at `fp` is either `r` unchanged
(exactly when `r` is within the window) or nothing (when `r` is pruned);
the incoming entry never takes `fp` in this run, so no field of a stored
Record, its summary included, is ever replaced by incoming data. -/
theorem firstSeen_wins (now cutoff : Nat) (existing : Store)
    (fetched : List FeedEntry) (fp : String) (r : Jval)
    (hnd : (existing.map Prod.fst).Nodup)
    (hwf : ∀ p ∈ existing, ∃ t, recPublished p.2 = Except.ok t)
    (hfp2 : ∀ e ∈ fetched, (fingerprint e.fields).isSome = true)
    (ht : ∀ e ∈ fetched, entryPublished now e < TMAX)
    (hmem : dget existing fp = some r)
    (_hinc : ∃ e ∈ fetched, fingerprint e.fields = some fp) :
    ∃ out, merge now cutoff existing fetched = .ok out ∧
      (dget out fp = some r ∨ dget out fp = none) ∧
      (∀ t, recPublished r = Except.ok t → cutoff ≤ t → dget out fp = some r) ∧
      (∀ t, recPublished r = Except.ok t → t < cutoff → dget out fp = none) := by
  obtain ⟨ext, hme, hprops, hmerge⟩ := merge_char hwf hfp2 ht
  have hnd2 := mergeEntries_nodup fetched existing _ hme hnd
  have hfull : dget (existing ++ ext) fp = some r := dget_append_some hmem
  have hflt := dget_filter (keepB cutoff) hnd2 hfull
  refine ⟨_, hmerge, ?_, ?_, ?_⟩
  · by_cases hk : keepB cutoff (fp, r) = true
    · rw [hflt, if_pos hk]
      exact Or.inl rfl
    · rw [hflt, if_neg hk]
      exact Or.inr rfl
  · intro t hrt hle
    rw [hflt, if_pos (keepB_iff.mpr ⟨t, hrt, hle⟩)]
  · intro t hrt hlt
    have hk : ¬ keepB cutoff (fp, r) = true := by
      intro hk
      obtain ⟨t2, ht2, hle2⟩ := keepB_iff.mp hk
      rw [hrt] at ht2
      cases ht2
      omega
    rw [hflt, if_neg hk]

/-- Witness for `firstSeen_wins`: the stored record for link `"a"` (summary
fields intact) survives a fetched entry with the same fingerprint and a
different summary. -/
theorem firstSeen_wins_witness :
    ∃ out, merge 100 50 [(cexFpA, cexRecA)] [cexEntryA] = .ok out ∧
      dget out cexFpA = some cexRecA := by
  obtain ⟨out, hok, _, hkeep, _⟩ :=
    firstSeen_wins 100 50 [(cexFpA, cexRecA)] [cexEntryA] cexFpA cexRecA
      (by simp)
      (fun p hp => by
        rw [List.mem_singleton] at hp
        subst hp
        exact ⟨77, rfl⟩)
      (fun e he => by
        rw [List.mem_singleton] at he
        subst he
        rfl)
      (fun e he => by
        rw [List.mem_singleton] at he
        subst he
        decide)
      dget_cons_self
      ⟨cexEntryA, List.mem_singleton_self _, rfl⟩
  exact ⟨out, hok, hkeep 77 rfl (by omega)⟩

/-! ## C8: idempotence of the merge -/

/-- **C8 counterexample.** Merge is not idempotent: a stale existing Record
shadows a fresh same-fingerprint fetched entry (first-seen-wins) and is
then pruned, so the first merge drops the item entirely, while merging the
same fetched list with the same window-start into that result admits it —
the second result differs from the first. -/
theorem merge_not_idempotent_cex :
    merge 100 50 cexStore [cexEntry] = .ok [] ∧
    merge 100 50 [] [cexEntry] = .ok [(cexFp, mkRecord cexEntry 60)] ∧
    ([(cexFp, mkRecord cexEntry 60)] : Store).length ≠ ([] : Store).length := by
  exact ⟨rfl, rfl, by decide⟩

/-- **C8 (amended).** Merge is idempotent provided no admitted fetched
entry shares its fingerprint with an out-of-window existing Record (the
shadow-prune configuration of the counterexample): then re-running the
merge with the same fetched list and window-start returns the first result
unchanged — no duplicate growth, no record change. -/
theorem merge_idempotent_no_shadow (now cutoff : Nat) (existing : Store)
    (fetched : List FeedEntry)
    (hnd : (existing.map Prod.fst).Nodup)
    (hwf : ∀ p ∈ existing, ∃ t, recPublished p.2 = Except.ok t)
    (hfp : ∀ e ∈ fetched, (fingerprint e.fields).isSome = true)
    (ht : ∀ e ∈ fetched, entryPublished now e < TMAX)
    (hshadow : ∀ p ∈ existing,
      (∃ e ∈ fetched, fingerprint e.fields = some p.1 ∧
        cutoff ≤ entryPublished now e) →
      ∃ t, recPublished p.2 = Except.ok t ∧ cutoff ≤ t) :
    ∃ out, merge now cutoff existing fetched = .ok out ∧
      merge now cutoff out fetched = .ok out := by
  obtain ⟨ext, hme, hprops, hmerge⟩ := merge_char hwf hfp ht
  have hnd2 := mergeEntries_nodup fetched existing _ hme hnd
  refine ⟨(existing ++ ext).filter (keepB cutoff), hmerge, ?_⟩
  have hpres : ∀ e ∈ fetched, ∀ fp2, fingerprint e.fields = some fp2 →
      cutoff ≤ entryPublished now e →
      (dget ((existing ++ ext).filter (keepB cutoff)) fp2).isSome = true := by
    intro e he fp2 hfpe hle
    have hfull : (dget (existing ++ ext) fp2).isSome = true :=
      mergeEntries_presence fetched existing _ hme e he fp2 hfpe hle
    rcases hv : dget (existing ++ ext) fp2 with _ | v
    · rw [hv] at hfull
      cases hfull
    · have hflt := dget_filter (keepB cutoff) hnd2 hv
      have hkeep : keepB cutoff (fp2, v) = true := by
        rcases hex : dget existing fp2 with _ | r
        · have hext : dget ext fp2 = some v := by
            rw [dget_append_none hex] at hv
            exact hv
          obtain ⟨_, e2, he2, _, hrec2, hle2⟩ := hprops (fp2, v) (dget_mem hext)
          rw [keepB_iff]
          refine ⟨entryPublished now e2, ?_, hle2⟩
          rw [hrec2]
          exact recPublished_mkRecord (ht e2 he2)
        · have hvr : dget (existing ++ ext) fp2 = some r := dget_append_some hex
          rw [hv] at hvr
          cases hvr
          rw [keepB_iff]
          exact hshadow (fp2, v) (dget_mem hex) ⟨e, he, hfpe, hle⟩
      rw [hflt, if_pos hkeep]
      rfl
  have hfold := mergeEntries_skip_all fetched
    ((existing ++ ext).filter (keepB cutoff)) hfp hpres
  simp only [merge, hfold]
  exact prune_id_of_all_keep _ (fun p hp => (List.mem_filter.mp hp).2)

/-- Witness for `merge_idempotent_no_shadow`: an in-window stored record
and a fetched entry with the same fingerprint — merging twice returns the
same mapping. -/
theorem merge_idempotent_no_shadow_witness :
    ∃ out, merge 100 50 [(cexFpA, cexRecA)] [cexEntryA] = .ok out ∧
      merge 100 50 out [cexEntryA] = .ok out := by
  apply merge_idempotent_no_shadow 100 50 [(cexFpA, cexRecA)] [cexEntryA]
  · simp
  · intro p hp
    rw [List.mem_singleton] at hp
    subst hp
    exact ⟨77, rfl⟩
  · intro e he
    rw [List.mem_singleton] at he
    subst he
    rfl
  · intro e he
    rw [List.mem_singleton] at he
    subst he
    decide
  · intro p hp _
    rw [List.mem_singleton] at hp
    subst hp
    exact ⟨77, rfl, by omega⟩
